import Mathlib

/-!
Verification development for the container-tracking workflow generator
(`generate_workflow.py`).  The decision logic of that program lives in
JavaScript code nodes embedded as string literals; this file gives a shallow
embedding of those nodes and proves the specified properties about them.

Modelling conventions:
* JS numbers are modelled as exact rationals extended with NaN and the two
  infinities (IEEE-754 double rounding is out of scope).
* Strings are modelled as `List Char`; `-0` is identified with `0`.
* All recursive scanners are defined with an explicit fuel argument (always
  called with fuel at least the input length) so that every definition
  evaluates by kernel reduction on concrete inputs.
-/

namespace CT

/-- The backtick character, written via its code point. -/
def btick : Char := Char.ofNat 96

/-- The opening-brace character, written via its code point. -/
def lbrace : Char := Char.ofNat 123

/-- The closing-brace character, written via its code point. -/
def rbrace : Char := Char.ofNat 125

/-- Addition on `ℚ` expressed through `mkRat` (definitionally transparent to
the kernel, unlike `Rat.add`); equal to `+` by `qAdd_eq`. -/
def qAdd (a b : ℚ) : ℚ :=
  mkRat (a.num * (b.den : Int) + b.num * (a.den : Int)) (a.den * b.den)

/-- Negation on `ℚ` expressed through `mkRat`; equal to `-·` by `qNeg_eq`. -/
def qNeg (q : ℚ) : ℚ := mkRat (-q.num) q.den

/-- A JavaScript number: a finite rational, NaN, or one of the two
infinities. -/
inductive JNum where
  | fin (q : ℚ)
  | nan
  | inf
  | ninf
  deriving DecidableEq

/-- JavaScript `+` on numbers (the cases reachable here: NaN is absorbing,
`Infinity + -Infinity` is NaN, an infinity absorbs finite addends). -/
def jsAdd : JNum → JNum → JNum
  | .nan, _ => .nan
  | _, .nan => .nan
  | .inf, .ninf => .nan
  | .ninf, .inf => .nan
  | .inf, _ => .inf
  | _, .inf => .inf
  | .ninf, _ => .ninf
  | _, .ninf => .ninf
  | .fin a, .fin b => .fin (qAdd a b)

/-- JavaScript strict equality `===` on numbers: NaN equals nothing,
including itself. -/
def jnumBeq : JNum → JNum → Bool
  | .fin a, .fin b => a == b
  | .inf, .inf => true
  | .ninf, .ninf => true
  | _, _ => false

/-- JavaScript `Number.isFinite` restricted to numbers. -/
def jnumFinite : JNum → Bool
  | .fin _ => true
  | _ => false

/-- JavaScript truthiness of a number: `0` and `NaN` are falsy. -/
def jnumTruthy : JNum → Bool
  | .fin q => !(q == 0)
  | .nan => false
  | _ => true

/- JSON values, as produced by `JSON.parse`.  Arrays and objects carry
their children through the companion types `JArr` and `JObj` (a mutual
rather than nested inductive, so that structural recursion and hence kernel
reduction are available). -/
mutual
inductive Json where
  | null
  | bool (b : Bool)
  | num (q : ℚ)
  | str (s : List Char)
  | arr (elems : JArr)
  | obj (entries : JObj)
inductive JArr where
  | nil
  | cons (hd : Json) (tl : JArr)
inductive JObj where
  | nil
  | cons (key : String) (val : Json) (tl : JObj)
end

/- Decidable equality on JSON values (hand-written: `deriving` does not
handle the mutual inductive). -/
mutual
def Json.decEq : (a b : Json) → Decidable (a = b)
  | .null, .null => .isTrue rfl
  | .bool x, .bool y =>
    if h : x = y then .isTrue (by rw [h]) else .isFalse (fun hh => h (by cases hh; rfl))
  | .num x, .num y =>
    if h : x = y then .isTrue (by rw [h]) else .isFalse (fun hh => h (by cases hh; rfl))
  | .str x, .str y =>
    if h : x = y then .isTrue (by rw [h]) else .isFalse (fun hh => h (by cases hh; rfl))
  | .arr x, .arr y =>
    match JArr.decEq x y with
    | .isTrue h => .isTrue (by rw [h])
    | .isFalse h => .isFalse (fun hh => h (by cases hh; rfl))
  | .obj x, .obj y =>
    match JObj.decEq x y with
    | .isTrue h => .isTrue (by rw [h])
    | .isFalse h => .isFalse (fun hh => h (by cases hh; rfl))
  | .null, .bool _ => .isFalse nofun
  | .null, .num _ => .isFalse nofun
  | .null, .str _ => .isFalse nofun
  | .null, .arr _ => .isFalse nofun
  | .null, .obj _ => .isFalse nofun
  | .bool _, .null => .isFalse nofun
  | .bool _, .num _ => .isFalse nofun
  | .bool _, .str _ => .isFalse nofun
  | .bool _, .arr _ => .isFalse nofun
  | .bool _, .obj _ => .isFalse nofun
  | .num _, .null => .isFalse nofun
  | .num _, .bool _ => .isFalse nofun
  | .num _, .str _ => .isFalse nofun
  | .num _, .arr _ => .isFalse nofun
  | .num _, .obj _ => .isFalse nofun
  | .str _, .null => .isFalse nofun
  | .str _, .bool _ => .isFalse nofun
  | .str _, .num _ => .isFalse nofun
  | .str _, .arr _ => .isFalse nofun
  | .str _, .obj _ => .isFalse nofun
  | .arr _, .null => .isFalse nofun
  | .arr _, .bool _ => .isFalse nofun
  | .arr _, .num _ => .isFalse nofun
  | .arr _, .str _ => .isFalse nofun
  | .arr _, .obj _ => .isFalse nofun
  | .obj _, .null => .isFalse nofun
  | .obj _, .bool _ => .isFalse nofun
  | .obj _, .num _ => .isFalse nofun
  | .obj _, .str _ => .isFalse nofun
  | .obj _, .arr _ => .isFalse nofun
def JArr.decEq : (a b : JArr) → Decidable (a = b)
  | .nil, .nil => .isTrue rfl
  | .cons x xs, .cons y ys =>
    match Json.decEq x y, JArr.decEq xs ys with
    | .isTrue h1, .isTrue h2 => .isTrue (by rw [h1, h2])
    | .isFalse h1, _ => .isFalse (fun hh => h1 (by cases hh; rfl))
    | _, .isFalse h2 => .isFalse (fun hh => h2 (by cases hh; rfl))
  | .nil, .cons _ _ => .isFalse nofun
  | .cons _ _, .nil => .isFalse nofun
def JObj.decEq : (a b : JObj) → Decidable (a = b)
  | .nil, .nil => .isTrue rfl
  | .cons k v tl, .cons l w tl2 =>
    if hk : k = l then
      match Json.decEq v w, JObj.decEq tl tl2 with
      | .isTrue h1, .isTrue h2 => .isTrue (by rw [hk, h1, h2])
      | .isFalse h1, _ => .isFalse (fun hh => h1 (by cases hh; rfl))
      | _, .isFalse h2 => .isFalse (fun hh => h2 (by cases hh; rfl))
    else .isFalse (fun hh => hk (by cases hh; rfl))
  | .nil, .cons _ _ _ => .isFalse nofun
  | .cons _ _ _, .nil => .isFalse nofun
end

instance : DecidableEq Json := Json.decEq

instance : DecidableEq JArr := JArr.decEq

/-- Conversion from a `JArr` to an ordinary list of values. -/
def JArr.toList : JArr → List Json
  | .nil => []
  | .cons x xs => x :: xs.toList

/-- Conversion from an ordinary list of values to a `JArr`. -/
def JArr.ofList : List Json → JArr
  | [] => .nil
  | x :: xs => .cons x (JArr.ofList xs)

/-- Conversion from a `JObj` to an ordinary association list. -/
def JObj.toEntries : JObj → List (String × Json)
  | .nil => []
  | .cons k v tl => (k, v) :: tl.toEntries

/-- Conversion from an ordinary association list to a `JObj`. -/
def JObj.ofEntries : List (String × Json) → JObj
  | [] => .nil
  | (k, v) :: tl => .cons k v (JObj.ofEntries tl)

/-- Shorthand for a JSON array built from a list. -/
def Json.jarr (l : List Json) : Json := .arr (JArr.ofList l)

/-- Shorthand for a JSON object built from an association list. -/
def Json.jobj (l : List (String × Json)) : Json := .obj (JObj.ofEntries l)

/-- JavaScript truthiness of a JSON value: `null`, `false`, `0`, and the
empty string are falsy; every object and array (even empty) is truthy. -/
def jsTruthy : Json → Bool
  | .null => false
  | .bool b => b
  | .num q => !(q == 0)
  | .str s => !s.isEmpty
  | .arr _ => true
  | .obj _ => true

/-- Helper for `getField`: scan the entries left to right, remembering the
value of the last entry whose key matches (JS object-literal semantics for
duplicate keys). -/
def getFieldGo (k : String) : JObj → Option Json → Option Json
  | .nil, acc => acc
  | .cons key v tl, acc => getFieldGo k tl (if key = k then some v else acc)

/-- Property read `o[k]` on a parsed JSON value: defined only when the value
is an object that has the key; every other read yields JS `undefined`,
modelled as `none`.  Reading a property of `null` throws in JS and is
handled separately at the call sites that can receive `null`. -/
def getField (j : Json) (k : String) : Option Json :=
  match j with
  | .obj entries => getFieldGo k entries none
  | _ => none

/-- Whitespace for JavaScript `String.prototype.trim` and string-to-number
coercion (ASCII whitespace, NBSP, BOM and the common Unicode spaces). -/
def isJsWs (c : Char) : Bool :=
  [9, 10, 11, 12, 13, 32, 0xA0, 0x1680, 0x2000, 0x2001, 0x2002, 0x2003,
   0x2004, 0x2005, 0x2006, 0x2007, 0x2008, 0x2009, 0x200A, 0x2028, 0x2029,
   0x202F, 0x205F, 0x3000, 0xFEFF].contains c.toNat

/-- JavaScript `trim`: drop leading and trailing whitespace. -/
def jsTrim (s : List Char) : List Char :=
  ((s.dropWhile isJsWs).reverse.dropWhile isJsWs).reverse

/-- Numeric value of a list of decimal digits. -/
def decDigitsVal (ds : List Char) : Nat :=
  ds.foldl (fun a c => a * 10 + (c.toNat - 48)) 0

/-- Value of a hexadecimal digit, if any. -/
def hexDigitVal (c : Char) : Option Nat :=
  if c.isDigit then some (c.toNat - 48)
  else if 97 ≤ c.toLower.toNat && c.toLower.toNat ≤ 102 then some (c.toLower.toNat - 87)
  else none

/-- Numeric value of a list of digits in the given base, failing on an
invalid digit or an empty list. -/
def baseDigitsVal (base : Nat) (ds : List Char) : Option Nat :=
  match ds with
  | [] => none
  | _ =>
    ds.foldlM (fun a c =>
      match hexDigitVal c with
      | some d => if d < base then some (a * base + d) else none
      | none => none) 0

/-- Exact rational value of `intDigits.fracDigits × 10^(±expVal)`, built
with `mkRat` and natural-number powers only (these evaluate by kernel
reduction, unlike the generic field operations). -/
def decToRat (intDs fracDs : List Char) (negExp : Bool) (expVal : Nat) : ℚ :=
  let fl := fracDs.length
  let mantNum := decDigitsVal intDs * 10 ^ fl + decDigitsVal fracDs
  if negExp then mkRat (Int.ofNat mantNum) (10 ^ fl * 10 ^ expVal)
  else mkRat (Int.ofNat (mantNum * 10 ^ expVal)) (10 ^ fl)

/-- Parse the unsigned decimal part of a JS numeric string
(`digits [. digits] [e/E [sign] digits]`, at least one digit overall),
returning its exact rational value; `none` if the shape is invalid. -/
def parseDecString (s : List Char) : Option ℚ :=
  let intDs := s.takeWhile Char.isDigit
  let rest := s.dropWhile Char.isDigit
  let fracPart : Option (List Char × List Char) :=
    match rest with
    | c :: r =>
      if c = '.' then some (r.takeWhile Char.isDigit, r.dropWhile Char.isDigit)
      else some ([], rest)
    | [] => some ([], [])
  match fracPart with
  | none => none
  | some (fracDs, rest2) =>
    if intDs.isEmpty && fracDs.isEmpty then none
    else
      match rest2 with
      | [] => some (decToRat intDs fracDs false 0)
      | e :: r =>
        if e = 'e' ∨ e = 'E' then
          let (negExp, edigits) :=
            match r with
            | '+' :: r2 => (false, r2)
            | '-' :: r2 => (true, r2)
            | _ => (false, r)
          if edigits.isEmpty ∨ ¬(edigits.all Char.isDigit) then none
          else some (decToRat intDs fracDs negExp (decDigitsVal edigits))
        else none

/-- JavaScript `ToNumber` on a string: trim, empty means `0`, optional sign
followed by `Infinity` or a decimal literal, or an unsigned hex / octal /
binary literal; anything else is NaN. -/
def strToNum (s : List Char) : JNum :=
  let t := jsTrim s
  match t with
  | [] => .fin 0
  | _ =>
    let signed : Option (Bool × List Char) :=
      match t with
      | '+' :: r => some (false, r)
      | '-' :: r => some (true, r)
      | _ => some (false, t)
    match signed with
    | none => .nan
    | some (neg, body) =>
      if body = "Infinity".toList then (if neg then .ninf else .inf)
      else
        let nonDec : Option Nat :=
          if t = body then
            match body with
            | '0' :: c :: ds =>
              if c = 'x' ∨ c = 'X' then baseDigitsVal 16 ds
              else if c = 'o' ∨ c = 'O' then baseDigitsVal 8 ds
              else if c = 'b' ∨ c = 'B' then baseDigitsVal 2 ds
              else none
            | _ => none
          else none
        match nonDec with
        | some n => .fin (mkRat (Int.ofNat n) 1)
        | none =>
          match parseDecString body with
          | some q => .fin (if neg then qNeg q else q)
          | none => .nan

/- Numeric coercion `Number(v)` for a JSON value `v` (JS `ToNumber` after
`ToPrimitive`).  An array converts via its comma-join string: a one-element
array converts via its element (`String` then `ToNumber` round-trips for the
values concerned, `null` joins as the empty string, a boolean joins as a
non-numeric word), the empty array via the empty string, and two or more
elements always contain a comma and are never numeric.  A plain object
converts via the non-numeric string "[object Object]". -/
mutual
def toNumber : Json → JNum
  | .null => .fin 0
  | .bool b => .fin (if b then 1 else 0)
  | .num q => .fin q
  | .str s => strToNum s
  | .arr a => toNumberArr a
  | .obj _ => .nan
def toNumberArr : JArr → JNum
  | .nil => .fin 0
  | .cons (.bool _) .nil => .nan
  | .cons .null .nil => .fin 0
  | .cons x .nil => toNumber x
  | .cons _ (.cons _ _) => .nan
end

/-- Whitespace accepted by `JSON.parse` (space, tab, newline, carriage
return). -/
def isJsonWs (c : Char) : Bool :=
  c == ' ' || c.toNat == 9 || c.toNat == 10 || c.toNat == 13

/-- Skip JSON whitespace. -/
def skipWs (s : List Char) : List Char := s.dropWhile isJsonWs

/-- Parse the body of a JSON string after the opening quote, returning the
decoded characters and the input after the closing quote.  Handles the JSON
escapes including the four-hex-digit form (a code point outside the valid
scalar range falls back to the `Char.ofNat` default; surrogate-pair
recombination is out of scope). -/
def parseStringBody : List Char → Option (List Char × List Char)
  | [] => none
  | '"' :: rest => some ([], rest)
  | '\\' :: 'u' :: a :: b :: c :: d :: rest =>
    (match hexDigitVal a, hexDigitVal b, hexDigitVal c, hexDigitVal d with
     | some x1, some x2, some x3, some x4 =>
       (parseStringBody rest).map
         (fun p => (Char.ofNat (((x1 * 16 + x2) * 16 + x3) * 16 + x4) :: p.1, p.2))
     | _, _, _, _ => none)
  | '\\' :: e :: rest =>
    (match
      (if e = '"' then some '"' else if e = '\\' then some '\\'
       else if e = '/' then some '/' else if e = 'b' then some (Char.ofNat 8)
       else if e = 'f' then some (Char.ofNat 12) else if e = 'n' then some '\n'
       else if e = 'r' then some '\r' else if e = 't' then some '\t' else none) with
     | some ch => (parseStringBody rest).map (fun p => (ch :: p.1, p.2))
     | none => none)
  | '\\' :: [] => none
  | c :: rest =>
    if c.toNat < 32 then none
    else (parseStringBody rest).map (fun p => (c :: p.1, p.2))

/-- Parse a JSON number (strict grammar: optional minus, integer part with
no leading zero, optional fraction and exponent), returning its exact
rational value and the rest of the input. -/
def parseJsonNumber (s : List Char) : Option (ℚ × List Char) :=
  let (neg, s1) := match s with | '-' :: r => (true, r) | _ => (false, s)
  let intDs := s1.takeWhile Char.isDigit
  let s2 := s1.dropWhile Char.isDigit
  if intDs.isEmpty then none
  else if 1 < intDs.length ∧ intDs.head? = some '0' then none
  else
    let fracRes : Option (List Char × List Char) :=
      match s2 with
      | '.' :: r =>
        let ds := r.takeWhile Char.isDigit
        if ds.isEmpty then none else some (ds, r.dropWhile Char.isDigit)
      | _ => some ([], s2)
    match fracRes with
    | none => none
    | some (fracDs, s3) =>
      match s3 with
      | e :: r =>
        if e = 'e' ∨ e = 'E' then
          let (negExp, r2) :=
            match r with
            | '+' :: rr => (false, rr)
            | '-' :: rr => (true, rr)
            | _ => (false, r)
          let expDs := r2.takeWhile Char.isDigit
          if expDs.isEmpty then none
          else
            let v := decToRat intDs fracDs negExp (decDigitsVal expDs)
            some ((if neg then qNeg v else v), r2.dropWhile Char.isDigit)
        else
          let mant := decToRat intDs fracDs false 0
          some ((if neg then qNeg mant else mant), s3)
      | [] =>
        let mant := decToRat intDs fracDs false 0
        some ((if neg then qNeg mant else mant), [])

/-- Insert a key/value pair into an object under construction with JS
object-literal duplicate-key semantics: a repeated key keeps its first
position but takes the latest value. -/
def objInsert : List (String × Json) → String → Json → List (String × Json)
  | [], k, v => [(k, v)]
  | (k1, v1) :: tl, k, v =>
    if k1 = k then (k, v) :: tl else (k1, v1) :: objInsert tl k v

mutual
def parseVal : Nat → List Char → Option (Json × List Char)
  | 0, _ => none
  | fuel + 1, s =>
    match skipWs s with
    | 'n' :: 'u' :: 'l' :: 'l' :: r => some (.null, r)
    | 't' :: 'r' :: 'u' :: 'e' :: r => some (.bool true, r)
    | 'f' :: 'a' :: 'l' :: 's' :: 'e' :: r => some (.bool false, r)
    | '"' :: r => (parseStringBody r).map (fun p => (Json.str p.1, p.2))
    | c :: r =>
      if c = lbrace then parseObjBody fuel r
      else if c = '[' then parseArrBody fuel r
      else
        match parseJsonNumber (c :: r) with
        | some (q, rest) => some (.num q, rest)
        | none => none
    | [] => none
def parseObjBody : Nat → List Char → Option (Json × List Char)
  | 0, _ => none
  | fuel + 1, s =>
    match skipWs s with
    | c :: r =>
      if c = rbrace then some (Json.jobj [], r)
      else parseMembers fuel (c :: r) []
    | [] => none
def parseMembers : Nat → List Char → List (String × Json) → Option (Json × List Char)
  | 0, _, _ => none
  | fuel + 1, s, acc =>
    match skipWs s with
    | '"' :: r =>
      (match parseStringBody r with
       | some (key, r2) =>
         (match skipWs r2 with
          | ':' :: r3 =>
            (match parseVal fuel r3 with
             | some (v, r4) =>
               let acc2 := objInsert acc (String.mk key) v
               (match skipWs r4 with
                | ',' :: r5 => parseMembers fuel r5 acc2
                | c :: r5 => if c = rbrace then some (Json.jobj acc2, r5) else none
                | [] => none)
             | none => none)
          | _ => none)
       | none => none)
    | _ => none
def parseArrBody : Nat → List Char → Option (Json × List Char)
  | 0, _ => none
  | fuel + 1, s =>
    match skipWs s with
    | ']' :: r => some (Json.jarr [], r)
    | t => parseElems fuel t []
def parseElems : Nat → List Char → List Json → Option (Json × List Char)
  | 0, _, _ => none
  | fuel + 1, s, acc =>
    match parseVal fuel s with
    | some (v, r) =>
      (match skipWs r with
       | ',' :: r2 => parseElems fuel r2 (acc ++ [v])
       | ']' :: r2 => some (Json.jarr (acc ++ [v]), r2)
       | _ => none)
    | none => none
end

/-- JavaScript `JSON.parse` on a whole string: parse one value and require
only whitespace afterwards, `none` on any syntax error.  The fuel bound
covers the maximal call depth: at least one input character is consumed for
every three nested calls. -/
def jsonParse (s : List Char) : Option Json :=
  match parseVal (3 * s.length + 3) s with
  | some (v, rest) => if skipWs rest = [] then some v else none
  | none => none

/-- Boolean prefix test on character lists. -/
def startsWithL : List Char → List Char → Bool
  | _, [] => true
  | [], _ :: _ => false
  | c :: cs, p :: ps => c == p && startsWithL cs ps

/-- Does the input begin with three backticks followed by "json" in any
letter case (the fixed part of the fenced-block regex)? -/
def startsWithTicksJson : List Char → Bool
  | a :: b :: c :: j :: s1 :: o :: n1 :: _ =>
    a == btick && b == btick && c == btick &&
    j.toLower == 'j' && s1.toLower == 's' && o.toLower == 'o' && n1.toLower == 'n'
  | _ => false

/-- Does the string contain three consecutive backticks anywhere? -/
def hasTriple : List Char → Bool
  | a :: b :: c :: rest =>
    (a == btick && b == btick && c == btick) || hasTriple (b :: c :: rest)
  | _ => false

/-- Split the input at the first occurrence of three consecutive backticks
(the lazy `[\s\S]*?` match up to the closing fence): returns the content
before the fence and the input after it. -/
def findClose : List Char → Option (List Char × List Char)
  | a :: b :: c :: rest =>
    if a == btick && b == btick && c == btick then some ([], rest)
    else
      match findClose (b :: c :: rest) with
      | some (content, r) => some (a :: content, r)
      | none => none
  | _ => none

/-- Global regex replacement of every fenced block: scan left to right, and
at each position where a complete fenced block starts replace the whole
match (computed from its content by `repl`) and continue after it, otherwise
emit one character and continue.  Matches JS `String.replace` with a global
regex.  Fuel is at least the input length at every call. -/
def stripFencesAux (repl : List Char → List Char → List Char) :
    Nat → List Char → List Char
  | 0, _ => []
  | _ + 1, [] => []
  | fuel + 1, c :: cs =>
    if startsWithTicksJson (c :: cs) then
      match findClose ((c :: cs).drop 7) with
      | some (content, rest) =>
        repl ((c :: cs).take (7 + (content.length + 3))) content ++
          stripFencesAux repl fuel rest
      | none => c :: stripFencesAux repl fuel cs
    else c :: stripFencesAux repl fuel cs

/-- Remove every occurrence of a fence opener or of three backticks, left to
right with the opener alternative tried first — the inner replacement used
by the packing-list variant of `extractJson`. -/
def stripTicksAux : Nat → List Char → List Char
  | 0, _ => []
  | _ + 1, [] => []
  | fuel + 1, c :: cs =>
    if startsWithTicksJson (c :: cs) then stripTicksAux fuel ((c :: cs).drop 7)
    else if startsWithL (c :: cs) [btick, btick, btick] then
      stripTicksAux fuel ((c :: cs).drop 3)
    else c :: stripTicksAux fuel cs

/-- The packing-list node's inner fence-marker removal. -/
def stripTicks (s : List Char) : List Char := stripTicksAux s.length s

/-- Fence stripping as in the bill-path `extractJson`: each fenced block is
replaced by its captured content (`'$1'`). -/
def stripFences1 (s : List Char) : List Char :=
  stripFencesAux (fun _ content => content) s.length s

/-- Fence stripping as in the packing-list-path `extractJson`: each fenced
block is replaced by itself with all fence markers removed. -/
def stripFences2 (s : List Char) : List Char :=
  stripFencesAux (fun whole _ => stripTicks whole) s.length s

/-- Model of JS `indexOf` for a single character: index of the first
occurrence, `none` when absent. -/
def idxOfChar (c : Char) : List Char → Option Nat
  | [] => none
  | a :: rest => if a = c then some 0 else (idxOfChar c rest).map (· + 1)

/-- Model of JS `lastIndexOf` for a single character (found case). -/
def lastIdxOfChar (c : Char) (s : List Char) : Option Nat :=
  match idxOfChar c s.reverse with
  | some i => some (s.length - 1 - i)
  | none => none

/-- Model of JS `slice(a, b)` on strings. -/
def sliceTo (s : List Char) (a b : Nat) : List Char := (s.drop a).take (b - a)

/-- Common tail of both `extractJson` variants after fence stripping: trim,
slice between the first opening and last closing brace when the trimmed text
does not already start with an opening brace, and `JSON.parse` with `null`
on failure. -/
def extractCore (t0 : List Char) : Option Json :=
  let text := jsTrim t0
  let text2 :=
    if startsWithL (jsTrim text) [lbrace] then text
    else
      match idxOfChar lbrace text, lastIdxOfChar rbrace text with
      | some st, some en => if st < en then sliceTo text st (en + 1) else text
      | _, _ => text
  jsonParse text2

/-- The `extractJson` embedded in the bill-path parse node. -/
def extractJson1 (text : List Char) : Option Json :=
  if text.isEmpty then none else extractCore (stripFences1 text)

/-- The `extractJson` embedded in the packing-list-path parse node. -/
def extractJson2 (text : List Char) : Option Json :=
  if text.isEmpty then none else extractCore (stripFences2 text)

/-- Word characters of the JS regex `\b` boundary (ASCII letters, digits and
the underscore). -/
def isWordChar (c : Char) : Bool := c.isAlphanum || c == '_'

/-- Case-insensitive prefix test. -/
def startsWithCI : List Char → List Char → Bool
  | _, [] => true
  | [], _ :: _ => false
  | c :: cs, p :: ps => c.toLower == p.toLower && startsWithCI cs ps

/-- Is the given neighbouring character (or string end, `none`) a word
boundary for a word made of word characters? -/
def boundaryOk : Option Char → Bool
  | none => true
  | some c => !isWordChar c

/-- Scan for a whole-word, case-insensitive occurrence of `word` (which
consists of word characters only, as all classifier keywords do), carrying
the previous character for the left boundary test.  Models
`new RegExp(&#92;b word &#92;b, i).test(name)`. -/
def containsWordGo (word : List Char) : Option Char → List Char → Bool
  | prev, s =>
    if startsWithCI s word && boundaryOk prev && boundaryOk ((s.drop word.length).head?) then
      true
    else
      match s with
      | [] => false
      | c :: cs => containsWordGo word (some c) cs

/-- The classifier's `containsWord(name, word)`. -/
def containsWord (name word : List Char) : Bool := containsWordGo word none name

/-- The classifier's `hasExt(name, ext)`:
`name.toLowerCase().endsWith(ext.toLowerCase())`. -/
def hasExt (name ext : List Char) : Bool :=
  startsWithL (name.map Char.toLower).reverse (ext.map Char.toLower).reverse

/-- The four classification labels. -/
inductive AttachmentType where
  | bill
  | commercial_invoice
  | packaging_list
  | unknown
  deriving DecidableEq

/-- The classification rule chain of the classify-attachment node (the input
is lowercased once up front; `containsWord` is case-insensitive anyway). -/
def classify (filenameRaw : List Char) : AttachmentType :=
  let filename := filenameRaw.map Char.toLower
  if (containsWord filename ("bill".toList) || containsWord filename ("bol".toList)) &&
      hasExt filename (".pdf".toList) then .bill
  else if containsWord filename ("ci".toList) && hasExt filename (".xlsx".toList) then
    .commercial_invoice
  else if (containsWord filename ("pkl".toList) || containsWord filename ("pack".toList) ||
      containsWord filename ("packing".toList)) && hasExt filename (".xlsx".toList) then
    .packaging_list
  else .unknown

/-- Containers contributed by one extraction result (the per-item
`extractJson` output, `none` for a parse failure): skipped when falsy,
included when the parsed value has an array-typed `container_numbers`
field. -/
def contOf : Option Json → List Json
  | none => []
  | some parsed =>
    if jsTruthy parsed then
      match getField parsed "container_numbers" with
      | some (.arr xs) => xs.toList
      | _ => []
    else []

/-- Concatenation of all contributed containers in result order. -/
def collectContainers (res : List (Option Json)) : List Json :=
  (res.map contOf).flatten

/-- Deduplication keeping first occurrences, as `[...new Set(xs)]` does for
the primitive values the pipeline carries (fuel is at least the list
length). -/
def dedupAux : Nat → List Json → List Json
  | 0, _ => []
  | _ + 1, [] => []
  | fuel + 1, x :: xs => x :: dedupAux fuel (xs.filter (fun y => decide (y ≠ x)))

/-- JS `[...new Set(l)]`. -/
def jsSetDedup (l : List Json) : List Json := dedupAux l.length l

/-- The aggregation performed by the parse-container-response node over the
per-item extraction results. -/
def reduceBillResults (res : List (Option Json)) : List Json :=
  jsSetDedup (collectContainers res)

/-- Loop state of the parse-PKL-response node. -/
structure PklState where
  allItems : List Json
  docTotal : Option JNum
  llmSum : Option JNum
  llmChecksum : Option Bool
  deriving DecidableEq

/-- Initial loop state. -/
def initState : PklState := ⟨[], none, none, none⟩

/-- One iteration of the parse-PKL-response loop on one extraction result
(`none` models a `null` from `extractJson`; a falsy parsed value is skipped
by `if (!parsed) continue`). -/
def pklStep (st : PklState) (r : Option Json) : PklState :=
  match r with
  | none => st
  | some parsed =>
    if jsTruthy parsed then
      let st1 :=
        match getField parsed "items" with
        | some (.arr xs) => { st with allItems := st.allItems ++ xs.toList }
        | _ => st
      let st2 :=
        match getField parsed "doc_total_qty_from_sheet" with
        | some v => if v = .null then st1 else { st1 with docTotal := some (toNumber v) }
        | _ => st1
      let st3 :=
        match getField parsed "qty_sum" with
        | some v => if v = .null then st2 else { st2 with llmSum := some (toNumber v) }
        | _ => st2
      match getField parsed "checksum_ok" with
      | some (.bool b) => { st3 with llmChecksum := some b }
      | _ => st3
    else st

/-- The coercion `Number(it.qty_expected) || 0` applied to one item (for any
non-null item; reading `qty_expected` off a primitive yields `undefined`
hence NaN hence `0`). -/
def coerceQty (it : Json) : JNum :=
  let n :=
    match getField it "qty_expected" with
    | some v => toNumber v
    | none => .nan
  if jnumTruthy n then n else .fin 0

/-- One step of the `reduce` recomputing the sum; a `null` item throws a
TypeError in JS (reading `.qty_expected` of `null`), modelled as `none`. -/
def addQty (acc : JNum) (it : Json) : Option JNum :=
  match it with
  | .null => none
  | _ => some (jsAdd acc (coerceQty it))

/-- The node's `allItems.reduce((acc, it) => acc + (Number(it.qty_expected)
|| 0), 0)`, `none` when the reduction throws. -/
def recomputeSum (items : List Json) : Option JNum := items.foldlM addQty (.fin 0)

/-- Output record of the parse-PKL-response node. -/
structure PklResult where
  pkl_items : List Json
  qty_sum : JNum
  doc_total_qty : Option JNum
  checksum_ok : Option Bool
  llm_reported_sum : Option JNum
  llm_checksum_ok : Option Bool
  deriving DecidableEq

/-- The whole parse-PKL-response node over the per-item extraction results:
fold the loop, recompute the sum locally, and derive `checksum_ok` from the
recorded document total only when that total is a finite number.  `none`
models the node throwing (only possible from a `null` element inside a
parsed `items` array). -/
def reducePackingList (res : List (Option Json)) : Option PklResult :=
  let st := res.foldl pklStep initState
  match recomputeSum st.allItems with
  | none => none
  | some s =>
    let checksumOk : Option Bool :=
      match st.docTotal with
      | some n => if jnumFinite n then some (jnumBeq s n) else none
      | none => none
    some { pkl_items := st.allItems, qty_sum := s, doc_total_qty := st.docTotal,
           checksum_ok := checksumOk, llm_reported_sum := st.llmSum,
           llm_checksum_ok := st.llmChecksum }

/-- One iteration of the merge node's loop: an array-typed
`container_numbers` or `pkl_items` field overwrites the corresponding
accumulator (arrays are always truthy, so the truthiness guard in the source
is equivalent to the array check). -/
def mergeStep (acc : List Json × List Json) (item : Json) : List Json × List Json :=
  let acc1 :=
    match getField item "container_numbers" with
    | some (.arr xs) => (xs.toList, acc.2)
    | _ => acc
  match getField item "pkl_items" with
  | some (.arr xs) => (acc1.1, xs.toList)
  | _ => acc1

/-- The merge-results node: fold over all incoming items starting from two
empty sequences and emit the combined record. -/
def mergeResults (inputs : List Json) : Json :=
  let p := inputs.foldl mergeStep ([], [])
  Json.jobj [("container_numbers", Json.jarr p.1), ("pkl_items", Json.jarr p.2)]

/-- JS `v || d` for an optionally-present field value. -/
def jsOrDefault (v : Option Json) (d : Json) : Json :=
  match v with
  | some x => if jsTruthy x then x else d
  | none => d

/-- The format-output node: assignments `container_numbers = $json.
container_numbers || []` and `sku_items = $json.pkl_items || []`. -/
def formatOutput (merged : Json) : Json :=
  Json.jobj
    [("container_numbers", jsOrDefault (getField merged "container_numbers") (Json.jarr [])),
     ("sku_items", jsOrDefault (getField merged "pkl_items") (Json.jarr []))]

/-- Merge node followed by the format-output node. -/
def pipelineOut (inputs : List Json) : Json := formatOutput (mergeResults inputs)

/-- Items contributed by one extraction result: the array-typed `items`
field of a truthy parsed value, nothing otherwise. -/
def itemsOf : Option Json → List Json
  | none => []
  | some parsed =>
    if jsTruthy parsed then
      match getField parsed "items" with
      | some (.arr xs) => xs.toList
      | _ => []
    else []

/-- Concatenation, in result order, of all array-typed `items` fields of
parseable results. -/
def concatItems (res : List (Option Json)) : List Json := (res.map itemsOf).flatten

/-- Declarative sum of the numeric coercions of the items' `qty_expected`
fields, a failed coercion contributing exactly `0` (via `coerceQty`). -/
def sumCoerce (items : List Json) : JNum :=
  items.foldr (fun it acc => jsAdd (coerceQty it) acc) (.fin 0)

/-- The non-null `doc_total_qty_from_sheet` value reported by one parseable
result, if any. -/
def reportOf : Option Json → Option Json
  | none => none
  | some parsed =>
    if jsTruthy parsed then
      match getField parsed "doc_total_qty_from_sheet" with
      | some v => if v = .null then none else some v
      | none => none
    else none

/-- The last non-null `doc_total_qty_from_sheet` reported by any parseable
result, in sequence order. -/
def lastReported (res : List (Option Json)) : Option Json :=
  (res.filterMap reportOf).getLast?

/-- No element of the item list is JSON `null` (a `null` item makes the
node's reduce throw). -/
def nullFree (items : List Json) : Prop := ∀ it ∈ items, it ≠ Json.null

instance (items : List Json) : Decidable (nullFree items) :=
  inferInstanceAs (Decidable (∀ it ∈ items, it ≠ Json.null))

/-- Remove the model-self-reported `qty_sum` and `checksum_ok` fields from
the top level of an object (the erasure under which two extraction results
are "identical except in the self-reported fields"). -/
def scrubObj : JObj → JObj
  | .nil => .nil
  | .cons k v tl =>
    if k = "qty_sum" ∨ k = "checksum_ok" then scrubObj tl
    else .cons k v (scrubObj tl)

/-- Erasure of the self-reported fields on any value. -/
def scrub : Json → Json
  | .obj o => .obj (scrubObj o)
  | j => j

/-- The reconciliation triple (recomputed sum, recorded total, checksum) as
a function of the concatenated items and the last reported total only. -/
def reconTriple (items : List Json) (rep : Option Json) :
    Option (JNum × Option JNum × Option Bool) :=
  match recomputeSum items with
  | none => none
  | some s =>
    let dt : Option JNum := rep.map toNumber
    let ck : Option Bool :=
      match dt with
      | some n => if jnumFinite n then some (jnumBeq s n) else none
      | none => none
    some (s, dt, ck)

/-- Does the value have an array-typed field of the given name? -/
def isArrField (i : Json) (k : String) : Bool :=
  match getField i k with
  | some (.arr _) => true
  | _ => false

/-- The string contains no backtick (so no fenced-block match can start in
or around it). -/
def noTick (s : List Char) : Prop := ∀ c ∈ s, c ≠ btick

instance (s : List Char) : Decidable (noTick s) :=
  inferInstanceAs (Decidable (∀ c ∈ s, c ≠ btick))

/-!
Theorems.  Helper lemmas come first; each claim theorem carries its claim
identifier in its doc comment, followed (where the statement has a
hypothesis) by its witness at a concrete input.
-/

theorem qAdd_eq (a b : ℚ) : qAdd a b = a + b := by
  rw [qAdd, Rat.mkRat_eq_div]
  conv_rhs => rw [← Rat.num_div_den a, ← Rat.num_div_den b]
  have ha : ((a.den : ℚ)) ≠ 0 := by
    exact_mod_cast a.den_nz
  have hb : ((b.den : ℚ)) ≠ 0 := by
    exact_mod_cast b.den_nz
  rw [div_add_div _ _ ha hb]
  push_cast
  ring_nf

theorem qNeg_eq (q : ℚ) : qNeg q = -q := by
  rw [qNeg, Rat.mkRat_eq_div]
  conv_rhs => rw [← Rat.num_div_den q]
  push_cast
  ring_nf

theorem jsAdd_assoc (a b c : JNum) : jsAdd (jsAdd a b) c = jsAdd a (jsAdd b c) := by
  cases a <;> cases b <;> cases c <;> simp [jsAdd, qAdd_eq, add_assoc]

theorem jsAdd_comm (a b : JNum) : jsAdd a b = jsAdd b a := by
  cases a <;> cases b <;> simp [jsAdd, qAdd_eq, add_comm]

theorem jsAdd_zero_left (a : JNum) : jsAdd (.fin 0) a = a := by
  cases a <;> simp [jsAdd, qAdd_eq]

theorem JArr.toList_ofList (l : List Json) : (JArr.ofList l).toList = l := by
  induction l with
  | nil => rfl
  | cons x xs ih => simp [JArr.ofList, JArr.toList, ih]

theorem JObj.toEntries_ofEntries (l : List (String × Json)) :
    (JObj.ofEntries l).toEntries = l := by
  induction l with
  | nil => rfl
  | cons x xs ih => cases x; simp [JObj.ofEntries, JObj.toEntries, ih]

theorem jsAdd_zero_right (a : JNum) : jsAdd a (.fin 0) = a := by
  cases a <;> simp [jsAdd, qAdd_eq]

theorem pklStep_allItems (st : PklState) (r : Option Json) :
    (pklStep st r).allItems = st.allItems ++ itemsOf r := by
  cases r with
  | none => simp [pklStep, itemsOf]
  | some parsed =>
    by_cases ht : jsTruthy parsed
    · simp only [pklStep, itemsOf, ht, if_true]
      rcases h1 : getField parsed "items" with _ | v1 <;>
        rcases h2 : getField parsed "doc_total_qty_from_sheet" with _ | v2 <;>
        rcases h3 : getField parsed "qty_sum" with _ | v3 <;>
        rcases h4 : getField parsed "checksum_ok" with _ | v4 <;>
        simp only [h1, h2, h3, h4] <;>
        (repeat' split) <;>
        simp_all
    · simp [pklStep, itemsOf, ht]

theorem pklStep_docTotal (st : PklState) (r : Option Json) :
    (pklStep st r).docTotal =
      (match reportOf r with
       | some v => some (toNumber v)
       | none => st.docTotal) := by
  cases r with
  | none => simp [pklStep, reportOf]
  | some parsed =>
    by_cases ht : jsTruthy parsed
    · simp only [pklStep, reportOf, ht, if_true]
      rcases h1 : getField parsed "items" with _ | v1 <;>
        rcases h2 : getField parsed "doc_total_qty_from_sheet" with _ | v2 <;>
        rcases h3 : getField parsed "qty_sum" with _ | v3 <;>
        rcases h4 : getField parsed "checksum_ok" with _ | v4 <;>
        simp only [h1, h2, h3, h4] <;>
        (repeat' split) <;>
        simp_all
    · simp [pklStep, reportOf, ht]

theorem foldl_pklStep_allItems (res : List (Option Json)) :
    ∀ st : PklState, (res.foldl pklStep st).allItems = st.allItems ++ concatItems res := by
  induction res with
  | nil => intro st; simp [concatItems]
  | cons r rs ih =>
    intro st
    simp only [List.foldl_cons, ih, pklStep_allItems, concatItems, List.map_cons,
      List.flatten_cons, List.append_assoc]

theorem foldl_pklStep_docTotal (res : List (Option Json)) :
    ∀ st : PklState, (res.foldl pklStep st).docTotal =
      (match lastReported res with
       | some v => some (toNumber v)
       | none => st.docTotal) := by
  induction res with
  | nil => intro st; simp [lastReported]
  | cons r rs ih =>
    intro st
    simp only [List.foldl_cons, ih, lastReported, List.filterMap_cons]
    rcases hr : reportOf r with _ | v
    · simp [hr, pklStep_docTotal]
    · rcases hl : (rs.filterMap reportOf).getLast? with _ | w
      · have : ((v :: rs.filterMap reportOf).getLast?) = some v := by
          cases hfe : rs.filterMap reportOf with
          | nil => simp
          | cons a as => simp_all
        simp [this, pklStep_docTotal, hr]
      · have : ((v :: rs.filterMap reportOf).getLast?) = some w := by
          cases hfe : rs.filterMap reportOf with
          | nil => simp_all
          | cons a as => rw [List.getLast?_cons_cons]; rw [hfe] at hl; exact hl
        simp [this, hl]

theorem addQty_eq_of_ne_null (acc : JNum) (it : Json) (h : it ≠ Json.null) :
    addQty acc it = some (jsAdd acc (coerceQty it)) := by
  cases it <;> simp [addQty] at h ⊢

theorem recomputeSum_of_nullFree :
    ∀ (items : List Json) (acc : JNum), nullFree items →
      List.foldlM addQty acc items =
        some (items.foldl (fun a it => jsAdd a (coerceQty it)) acc) := by
  intro items
  induction items with
  | nil => intro acc h; rfl
  | cons it its ih =>
    intro acc h
    have hne : it ≠ Json.null := h it (by simp)
    have htl : nullFree its := fun x hx => h x (by simp [hx])
    simp [List.foldlM_cons, addQty_eq_of_ne_null _ _ hne, ih _ htl]

theorem recomputeSum_some_val :
    ∀ (items : List Json) (acc s : JNum),
      List.foldlM addQty acc items = some s →
      s = items.foldl (fun a it => jsAdd a (coerceQty it)) acc := by
  intro items
  induction items with
  | nil => intro acc s h; simp [List.foldlM] at h; simp [h]
  | cons it its ih =>
    intro acc s h
    cases hit : addQty acc it with
    | none => simp [List.foldlM_cons, hit] at h
    | some a =>
      simp [List.foldlM_cons, hit] at h
      have ha : a = jsAdd acc (coerceQty it) := by
        cases it <;> simp [addQty] at hit <;> simp [hit]
      subst ha
      simpa using ih _ _ h

theorem foldl_jsAdd_eq_sumCoerce :
    ∀ (items : List Json) (acc : JNum),
      items.foldl (fun a it => jsAdd a (coerceQty it)) acc = jsAdd acc (sumCoerce items) := by
  intro items
  induction items with
  | nil => intro acc; simp [sumCoerce, jsAdd_zero_right]
  | cons it its ih =>
    intro acc
    simp only [List.foldl_cons, ih, sumCoerce, List.foldr_cons]
    rw [jsAdd_assoc]

theorem foldl_allItems_init (res : List (Option Json)) :
    (res.foldl pklStep initState).allItems = concatItems res := by
  simpa [initState] using foldl_pklStep_allItems res initState

theorem foldl_docTotal_init (res : List (Option Json)) :
    (res.foldl pklStep initState).docTotal = (lastReported res).map toNumber := by
  rw [foldl_pklStep_docTotal]
  cases lastReported res <;> simp [initState]

theorem recomputeSum_eq_sumCoerce (items : List Json) (h : nullFree items) :
    recomputeSum items = some (sumCoerce items) := by
  rw [recomputeSum, recomputeSum_of_nullFree items (.fin 0) h,
    foldl_jsAdd_eq_sumCoerce, jsAdd_zero_left]

theorem reduce_triple_eq (res : List (Option Json)) :
    (reducePackingList res).map (fun o => (o.qty_sum, o.doc_total_qty, o.checksum_ok)) =
      reconTriple (concatItems res) (lastReported res) := by
  simp only [reducePackingList, reconTriple, foldl_allItems_init, foldl_docTotal_init]
  cases h : recomputeSum (concatItems res) with
  | none => simp
  | some s => cases lastReported res <;> simp

theorem getFieldGo_scrubObj (k : String) (hk1 : k ≠ "qty_sum") (hk2 : k ≠ "checksum_ok") :
    ∀ (o : JObj) (acc : Option Json), getFieldGo k (scrubObj o) acc = getFieldGo k o acc
  | .nil, _ => rfl
  | .cons key v tl, acc => by
    by_cases hs : key = "qty_sum" ∨ key = "checksum_ok"
    · have hkk : ¬(key = k) := by
        rintro rfl
        rcases hs with h | h
        exacts [hk1 h, hk2 h]
      simp only [scrubObj, hs, if_true, getFieldGo, hkk, if_false, if_neg hkk]
      exact getFieldGo_scrubObj k hk1 hk2 tl acc
    · simp only [scrubObj, hs, if_false, getFieldGo]
      exact getFieldGo_scrubObj k hk1 hk2 tl _

theorem getField_scrub (j : Json) (k : String) (hk1 : k ≠ "qty_sum")
    (hk2 : k ≠ "checksum_ok") : getField (scrub j) k = getField j k := by
  cases j <;> simp [scrub, getField]
  exact getFieldGo_scrubObj k hk1 hk2 _ none

theorem jsTruthy_scrub (j : Json) : jsTruthy (scrub j) = jsTruthy j := by
  cases j <;> simp [scrub, jsTruthy]

theorem itemsOf_scrub (r : Option Json) : itemsOf (r.map scrub) = itemsOf r := by
  cases r with
  | none => rfl
  | some p =>
    simp [itemsOf, jsTruthy_scrub,
      getField_scrub p "items" (by decide) (by decide)]

theorem reportOf_scrub (r : Option Json) : reportOf (r.map scrub) = reportOf r := by
  cases r with
  | none => rfl
  | some p =>
    simp [reportOf, jsTruthy_scrub,
      getField_scrub p "doc_total_qty_from_sheet" (by decide) (by decide)]

theorem concatItems_scrub (res : List (Option Json)) :
    concatItems (res.map (Option.map scrub)) = concatItems res := by
  simp [concatItems, List.map_map, Function.comp_def, itemsOf_scrub]

theorem lastReported_scrub (res : List (Option Json)) :
    lastReported (res.map (Option.map scrub)) = lastReported res := by
  simp [lastReported, List.filterMap_map, Function.comp_def, reportOf_scrub]

/-- C1: for every sequence of packing-list extraction results whose items
are not JSON `null` (items are objects in the data model), the reconciled
`qty_sum` equals the sum, over the concatenation of all array-typed `items`
fields of parseable results, of the numeric coercion of each item's
`qty_expected`, where a coercion that fails (NaN: non-numeric or missing)
contributes exactly `0` (see `coerceQty`), and every such item — malformed
quantity or not — still appears in `pkl_items`. -/
theorem pkl_qty_sum_recomputed (res : List (Option Json))
    (h : nullFree (concatItems res)) :
    (reducePackingList res).map PklResult.qty_sum = some (sumCoerce (concatItems res)) ∧
    (reducePackingList res).map PklResult.pkl_items = some (concatItems res) := by
  constructor <;>
    simp [reducePackingList, foldl_allItems_init, recomputeSum_eq_sumCoerce _ h]

/-- Witness for C1 at a concrete input: one parseable result with one
well-formed item and one item whose `qty_expected` is the non-numeric
string "N/A"; the sum is `50` and both items survive in `pkl_items`. -/
theorem pkl_qty_sum_recomputed_witness :
    (reducePackingList
        [some (Json.jobj [("items", Json.jarr
          [Json.jobj [("sku", .str ("A".toList)), ("qty_expected", .num 50)],
           Json.jobj [("sku", .str ("C".toList)), ("qty_expected", .str ("N/A".toList))]])])]).map
        PklResult.qty_sum =
      some (sumCoerce (concatItems
        [some (Json.jobj [("items", Json.jarr
          [Json.jobj [("sku", .str ("A".toList)), ("qty_expected", .num 50)],
           Json.jobj [("sku", .str ("C".toList)), ("qty_expected", .str ("N/A".toList))]])])])) ∧
    (reducePackingList
        [some (Json.jobj [("items", Json.jarr
          [Json.jobj [("sku", .str ("A".toList)), ("qty_expected", .num 50)],
           Json.jobj [("sku", .str ("C".toList)), ("qty_expected", .str ("N/A".toList))]])])]).map
        PklResult.pkl_items =
      some (concatItems
        [some (Json.jobj [("items", Json.jarr
          [Json.jobj [("sku", .str ("A".toList)), ("qty_expected", .num 50)],
           Json.jobj [("sku", .str ("C".toList)), ("qty_expected", .str ("N/A".toList))]])])]) :=
  pkl_qty_sum_recomputed _ (by decide)

/-- C8: the reconciled `doc_total_qty` is the numeric coercion of the last
non-null `doc_total_qty_from_sheet` reported by a parseable result in
sequence order (last write wins), and `none` when no parseable result
reports one. -/
theorem pkl_doc_total_last_write_wins (res : List (Option Json))
    (h : nullFree (concatItems res)) :
    (reducePackingList res).map PklResult.doc_total_qty =
      some ((lastReported res).map toNumber) := by
  simp [reducePackingList, foldl_allItems_init, foldl_docTotal_init,
    recomputeSum_eq_sumCoerce _ h]

/-- Witness for C8 at a concrete input: two results report totals 100 and
113; the recorded total is the later one, 113. -/
theorem pkl_doc_total_last_write_wins_witness :
    (reducePackingList
        [some (Json.jobj [("doc_total_qty_from_sheet", .num 100)]),
         some (Json.jobj [("doc_total_qty_from_sheet", .num 113)])]).map
        PklResult.doc_total_qty =
      some ((lastReported
        [some (Json.jobj [("doc_total_qty_from_sheet", .num 100)]),
         some (Json.jobj [("doc_total_qty_from_sheet", .num 113)])]).map toNumber) :=
  pkl_doc_total_last_write_wins _ (by decide)

/-- C2: whenever the packing-list reducer produces an output, its
`checksum_ok` is `null` exactly when the recorded document total (the
last-write-wins coercion over the results) is not a finite number, it equals
the strict equality `qty_sum === doc_total_qty` whenever that total is a
finite number, and `qty_sum` is the locally recomputed sum in every case —
also when no total is present. -/
theorem pkl_checksum_null_iff_no_finite_total (res : List (Option Json))
    (out : PklResult) (hout : reducePackingList res = some out) :
    (out.checksum_ok = none ↔ ∀ q : ℚ, (lastReported res).map toNumber ≠ some (.fin q)) ∧
    (∀ q : ℚ, (lastReported res).map toNumber = some (.fin q) →
      out.checksum_ok = some (jnumBeq out.qty_sum (.fin q))) ∧
    out.qty_sum = sumCoerce (concatItems res) := by
  simp only [reducePackingList, foldl_allItems_init, foldl_docTotal_init] at hout
  cases h : recomputeSum (concatItems res) with
  | none => rw [h] at hout; simp at hout
  | some s =>
    rw [h] at hout
    simp only [Option.some.injEq] at hout
    have hsum : s = sumCoerce (concatItems res) := by
      have := recomputeSum_some_val (concatItems res) (.fin 0) s h
      rw [this, foldl_jsAdd_eq_sumCoerce, jsAdd_zero_left]
    subst hout
    refine ⟨?_, ?_, hsum⟩
    · cases hdt : (lastReported res).map toNumber with
      | none => simp
      | some n => cases n <;> simp [jnumFinite]
    · intro q hq
      simp [hq, jnumFinite]

/-- Witness for C2 at the spec's checksum example: items 50 and 63 with a
recorded document total of 113 give `checksum_ok = qty_sum === 113`. -/
theorem pkl_checksum_null_iff_no_finite_total_witness :
    (PklResult.mk
        [Json.jobj [("sku", .str ("A".toList)), ("qty_expected", .num 50)],
         Json.jobj [("sku", .str ("B".toList)), ("qty_expected", .num 63)]]
        (.fin 113) (some (.fin 113)) (some true) none none).checksum_ok =
      some (jnumBeq (PklResult.mk
        [Json.jobj [("sku", .str ("A".toList)), ("qty_expected", .num 50)],
         Json.jobj [("sku", .str ("B".toList)), ("qty_expected", .num 63)]]
        (.fin 113) (some (.fin 113)) (some true) none none).qty_sum (.fin 113)) :=
  (pkl_checksum_null_iff_no_finite_total
    [some (Json.jobj [("items", Json.jarr
        [Json.jobj [("sku", .str ("A".toList)), ("qty_expected", .num 50)],
         Json.jobj [("sku", .str ("B".toList)), ("qty_expected", .num 63)]]),
      ("doc_total_qty_from_sheet", .num 113)])]
    _ (by decide)).2.1 113 (by decide)

/-- C6: two result sequences that agree after erasing the model
self-reported `qty_sum` and `checksum_ok` fields of their elements produce
the same recomputed `qty_sum`, the same `doc_total_qty` and the same
`checksum_ok` — the self-reported values never influence the
reconciliation. -/
theorem pkl_self_reported_fields_not_trusted (res1 res2 : List (Option Json))
    (h : res1.map (Option.map scrub) = res2.map (Option.map scrub)) :
    (reducePackingList res1).map (fun o => (o.qty_sum, o.doc_total_qty, o.checksum_ok)) =
    (reducePackingList res2).map (fun o => (o.qty_sum, o.doc_total_qty, o.checksum_ok)) := by
  rw [reduce_triple_eq, reduce_triple_eq]
  have hc : concatItems res1 = concatItems res2 := by
    rw [← concatItems_scrub res1, ← concatItems_scrub res2, h]
  have hl : lastReported res1 = lastReported res2 := by
    rw [← lastReported_scrub res1, ← lastReported_scrub res2, h]
  rw [hc, hl]

/-- Witness for C6 at a concrete input: the same result with and without
self-reported `qty_sum = 999` and `checksum_ok = false` fields yields the
same reconciliation triple. -/
theorem pkl_self_reported_fields_not_trusted_witness :
    (reducePackingList
        [some (Json.jobj
          [("items", Json.jarr [Json.jobj [("sku", .str ("A".toList)), ("qty_expected", .num 50)]]),
           ("doc_total_qty_from_sheet", .num 50),
           ("qty_sum", .num 999), ("checksum_ok", .bool false)])]).map
        (fun o => (o.qty_sum, o.doc_total_qty, o.checksum_ok)) =
    (reducePackingList
        [some (Json.jobj
          [("items", Json.jarr [Json.jobj [("sku", .str ("A".toList)), ("qty_expected", .num 50)]]),
           ("doc_total_qty_from_sheet", .num 50)])]).map
        (fun o => (o.qty_sum, o.doc_total_qty, o.checksum_ok)) :=
  pkl_self_reported_fields_not_trusted _ _ (by decide)

theorem mem_dedupAux : ∀ (fuel : Nat) (l : List Json), l.length ≤ fuel →
    ∀ x, (x ∈ dedupAux fuel l ↔ x ∈ l) := by
  intro fuel
  induction fuel with
  | zero =>
    intro l hl x
    have : l = [] := List.eq_nil_of_length_eq_zero (Nat.le_zero.mp hl)
    subst this
    simp [dedupAux]
  | succ n ih =>
    intro l hl x
    cases l with
    | nil => simp [dedupAux]
    | cons a as =>
      have hlen : (as.filter (fun y => decide (y ≠ a))).length ≤ n := by
        have := List.length_filter_le (fun y => decide (y ≠ a)) as
        simp at hl
        omega
      simp only [dedupAux, List.mem_cons, ih _ hlen x, List.mem_filter]
      by_cases hx : x = a <;> simp [hx]

theorem nodup_dedupAux : ∀ (fuel : Nat) (l : List Json), l.length ≤ fuel →
    (dedupAux fuel l).Nodup := by
  intro fuel
  induction fuel with
  | zero => intro l hl; simp [dedupAux]
  | succ n ih =>
    intro l hl
    cases l with
    | nil => simp [dedupAux]
    | cons a as =>
      have hlen : (as.filter (fun y => decide (y ≠ a))).length ≤ n := by
        have := List.length_filter_le (fun y => decide (y ≠ a)) as
        simp at hl
        omega
      simp only [dedupAux, List.nodup_cons]
      refine ⟨fun hmem => ?_, ih _ hlen⟩
      rw [mem_dedupAux n _ hlen a] at hmem
      simp [List.mem_filter] at hmem

theorem collectContainers_append (l1 l2 : List (Option Json)) :
    collectContainers (l1 ++ l2) = collectContainers l1 ++ collectContainers l2 := by
  simp [collectContainers]

theorem collectContainers_cons (r : Option Json) (l : List (Option Json)) :
    collectContainers (r :: l) = contOf r ++ collectContainers l := by
  simp [collectContainers]

theorem contOf_subset (l1 : List (Option Json)) (r : Option Json) (h : r ∈ l1) :
    ∀ x ∈ contOf r, x ∈ collectContainers l1 := by
  intro x hx
  obtain ⟨s, t, rfl⟩ := List.append_of_mem h
  rw [collectContainers_append, collectContainers_cons]
  simp only [List.mem_append]
  exact Or.inr (Or.inl hx)

/-- C7: the bill reducer is idempotent with respect to a duplicated non-null
result — reducing a list in which a result already present occurs once more
yields the same set of `container_numbers` — and its output never contains
duplicates.  The hypothesis `hstr` restricts container entries to strings,
the `BillExtractionResult` data model under which structural deduplication
coincides with the JS `Set` (SameValueZero) semantics. -/
theorem bill_reducer_idempotent_nodup (l1 l2 : List (Option Json)) (r : Json)
    (hmem : some r ∈ l1)
    (_hstr : ∀ o ∈ l1 ++ some r :: l2, ∀ x ∈ contOf o, ∃ s, x = Json.str s) :
    (∀ x, x ∈ reduceBillResults (l1 ++ some r :: l2) ↔ x ∈ reduceBillResults (l1 ++ l2)) ∧
    (reduceBillResults (l1 ++ some r :: l2)).Nodup ∧
    (reduceBillResults (l1 ++ l2)).Nodup := by
  refine ⟨fun x => ?_, nodup_dedupAux _ _ le_rfl, nodup_dedupAux _ _ le_rfl⟩
  rw [reduceBillResults, reduceBillResults, jsSetDedup, jsSetDedup,
    mem_dedupAux _ _ le_rfl, mem_dedupAux _ _ le_rfl,
    collectContainers_append, collectContainers_append, collectContainers_cons]
  simp only [List.mem_append]
  constructor
  · rintro (h | h | h)
    exacts [Or.inl h, Or.inl (contOf_subset l1 _ hmem x h), Or.inr h]
  · rintro (h | h)
    exacts [Or.inl h, Or.inr (Or.inr h)]

/-- Witness for C7 at the spec's example: the result
`(container_numbers: [ABCD1234567])` duplicated dedups to the singleton. -/
theorem bill_reducer_idempotent_nodup_witness :
    (Json.str ("ABCD1234567".toList) ∈ reduceBillResults
        [some (Json.jobj [("container_numbers", Json.jarr [.str ("ABCD1234567".toList)])]),
         some (Json.jobj [("container_numbers", Json.jarr [.str ("ABCD1234567".toList)])])] ↔
      Json.str ("ABCD1234567".toList) ∈ reduceBillResults
        [some (Json.jobj [("container_numbers", Json.jarr [.str ("ABCD1234567".toList)])])]) ∧
    (reduceBillResults
        [some (Json.jobj [("container_numbers", Json.jarr [.str ("ABCD1234567".toList)])]),
         some (Json.jobj [("container_numbers", Json.jarr [.str ("ABCD1234567".toList)])])]).Nodup := by
  have h := bill_reducer_idempotent_nodup
    [some (Json.jobj [("container_numbers", Json.jarr [.str ("ABCD1234567".toList)])])] []
    (Json.jobj [("container_numbers", Json.jarr [.str ("ABCD1234567".toList)])])
    (by simp)
    (by
      intro o ho x hx
      simp only [List.mem_append, List.mem_cons, List.mem_singleton,
        List.not_mem_nil, or_false] at ho
      have hco : contOf (some (Json.jobj
          [("container_numbers", Json.jarr [.str ("ABCD1234567".toList)])])) =
          [Json.str ("ABCD1234567".toList)] := rfl
      rcases ho with rfl | rfl <;>
        (rw [hco] at hx
         simp only [List.mem_singleton] at hx
         exact ⟨_, hx⟩))
  exact ⟨h.1 _, h.2.1⟩

/-- C3: both embedded `extractJson` implementations are total functions into
object-or-null (modelled as `Option Json`; no exception escapes, the parser
failure path yields `none`), and on the plain-prose input
"not json at all" both return `null`. -/
theorem extractJson_total_and_null_on_garbage :
    (∀ s, extractJson1 s = none ∨ ∃ v, extractJson1 s = some v) ∧
    (∀ s, extractJson2 s = none ∨ ∃ v, extractJson2 s = some v) ∧
    extractJson1 ("not json at all".toList) = none ∧
    extractJson2 ("not json at all".toList) = none := by
  refine ⟨fun s => ?_, fun s => ?_, rfl, rfl⟩
  · cases h : extractJson1 s with
    | none => exact Or.inl rfl
    | some v => exact Or.inr ⟨v, rfl⟩
  · cases h : extractJson2 s with
    | none => exact Or.inl rfl
    | some v => exact Or.inr ⟨v, rfl⟩

/-- Counterexample to C5 as stated: the JS word boundary `&#92;b` treats the
underscore as a word character, so `\bbill\b` does not match
"bill_of_lading.pdf" and the file classifies as `unknown`, not `bill`. -/
theorem classify_underscore_counterexample :
    classify ("Bill_of_Lading.pdf".toList) = AttachmentType.unknown ∧
    classify ("Bill_of_Lading.pdf".toList) ≠ AttachmentType.bill := by
  exact ⟨rfl, by decide⟩

/-- C5 (amended): `classify` is a pure case-insensitive function of the
filename using whole-word matching in which the underscore counts as a word
character: "Bill of Lading.pdf", "Bill-of-Lading.pdf", "BILL.PDF" and
"bill.pdf" classify as `bill`, while "Bill_of_Lading.pdf" (underscore joins
the word), "mobilehome.pdf" and "responsible_report.pdf" (substring-only
occurrences) classify as `unknown`. -/
theorem classify_whole_word_underscore_is_word_char :
    classify ("Bill of Lading.pdf".toList) = AttachmentType.bill ∧
    classify ("Bill-of-Lading.pdf".toList) = AttachmentType.bill ∧
    classify ("BILL.PDF".toList) = AttachmentType.bill ∧
    classify ("bill.pdf".toList) = AttachmentType.bill ∧
    classify ("Bill_of_Lading.pdf".toList) = AttachmentType.unknown ∧
    classify ("mobilehome.pdf".toList) = AttachmentType.unknown ∧
    classify ("responsible_report.pdf".toList) = AttachmentType.unknown :=
  ⟨rfl, rfl, rfl, rfl, rfl, rfl, rfl⟩

theorem foldl_mergeStep_snd (inputs : List Json) :
    ∀ acc : List Json × List Json,
      (∀ i ∈ inputs, isArrField i "pkl_items" = false) →
      (inputs.foldl mergeStep acc).2 = acc.2 := by
  induction inputs with
  | nil => intro acc _; rfl
  | cons i is ih =>
    intro acc h
    have hi := h i (by simp)
    have htl : ∀ j ∈ is, isArrField j "pkl_items" = false := fun j hj => h j (by simp [hj])
    rw [List.foldl_cons, ih _ htl]
    rcases hg : getField i "pkl_items" with _ | v
    · cases hc : getField i "container_numbers" with
      | none => simp [mergeStep, hg, hc]
      | some w => cases w <;> simp [mergeStep, hg, hc]
    · cases v <;>
        first
        | (cases hc : getField i "container_numbers" with
           | none => simp [mergeStep, hg, hc]
           | some w => cases w <;> simp [mergeStep, hg, hc])
        | (exfalso; simp [isArrField, hg] at hi)

theorem pipelineOut_shape (inputs : List Json) :
    pipelineOut inputs =
      Json.jobj [("container_numbers", Json.jarr (inputs.foldl mergeStep ([], [])).1),
                 ("sku_items", Json.jarr (inputs.foldl mergeStep ([], [])).2)] := by
  simp [pipelineOut, mergeResults, formatOutput, getField, getFieldGo,
    Json.jobj, Json.jarr, jsOrDefault, jsTruthy, JObj.ofEntries]

/-- C9: the merged final record always carries both fields, as arrays: with
just the bill branch's output present the result is its container numbers
together with an empty `sku_items`; in general the output is an object with
array-typed `container_numbers` and `sku_items`; and whenever no input item
carries an array-typed `pkl_items` field (a packing-list branch that
produced nothing), `sku_items` defaults to the empty array. -/
theorem merge_missing_branch_defaults_empty :
    (∀ cns : List Json,
      pipelineOut [Json.jobj [("container_numbers", Json.jarr cns)]] =
        Json.jobj [("container_numbers", Json.jarr cns), ("sku_items", Json.jarr [])]) ∧
    (∀ inputs : List Json, ∃ c p : List Json,
      pipelineOut inputs =
        Json.jobj [("container_numbers", Json.jarr c), ("sku_items", Json.jarr p)]) ∧
    (∀ inputs : List Json, (∀ i ∈ inputs, isArrField i "pkl_items" = false) →
      getField (pipelineOut inputs) "sku_items" = some (Json.jarr [])) := by
  refine ⟨fun cns => ?_, fun inputs => ⟨_, _, pipelineOut_shape inputs⟩, fun inputs h => ?_⟩
  · rw [pipelineOut_shape]
    simp [mergeStep, getField, getFieldGo, Json.jobj, Json.jarr, JObj.ofEntries,
      JArr.toList_ofList]
  · rw [pipelineOut_shape, foldl_mergeStep_snd inputs ([], []) h]
    simp [getField, getFieldGo, Json.jobj, Json.jarr, JObj.ofEntries]

/-- Witness for C9 at a concrete input: a bill output and no packing-list
output gives an empty `sku_items`. -/
theorem merge_missing_branch_defaults_empty_witness :
    getField (pipelineOut
        [Json.jobj [("container_numbers", Json.jarr [.str ("X".toList)])]]) "sku_items" =
      some (Json.jarr []) :=
  merge_missing_branch_defaults_empty.2.2 _ (by decide)

theorem swtj_shape (s : List Char) (h : startsWithTicksJson s = true) :
    ∃ j1 s1 o1 n1 rest, s = btick :: btick :: btick :: j1 :: s1 :: o1 :: n1 :: rest ∧
      j1.toLower = 'j' ∧ s1.toLower = 's' ∧ o1.toLower = 'o' ∧ n1.toLower = 'n' := by
  rcases s with _ | ⟨a, _ | ⟨b, _ | ⟨c, _ | ⟨j1, _ | ⟨s1, _ | ⟨o1, _ | ⟨n1, rest⟩⟩⟩⟩⟩⟩⟩ <;>
    simp [startsWithTicksJson] at h
  obtain ⟨⟨⟨⟨⟨⟨ha, hb⟩, hc⟩, hj⟩, hs1⟩, ho⟩, hn⟩ := h
  exact ⟨j1, s1, o1, n1, rest, by rw [ha, hb, hc], hj, hs1, ho, hn⟩

theorem swtj_ticks (a b c : Char) (rest : List Char)
    (h : startsWithTicksJson (a :: b :: c :: rest) = true) :
    a = btick ∧ b = btick ∧ c = btick := by
  obtain ⟨j1, s1, o1, n1, r, heq, _⟩ := swtj_shape _ h
  simp only [List.cons.injEq] at heq
  exact ⟨heq.1, heq.2.1, heq.2.2.1⟩

theorem findClose_decomp : ∀ (s content r : List Char), findClose s = some (content, r) →
    s = content ++ btick :: btick :: btick :: r ∧ hasTriple content = false := by
  intro s
  induction s using findClose.induct with
  | case1 a b c rest htrip =>
    intro content r h
    rw [findClose, if_pos htrip] at h
    simp only [Option.some.injEq, Prod.mk.injEq] at h
    obtain ⟨rfl, rfl⟩ := h
    simp only [Bool.and_eq_true, beq_iff_eq] at htrip
    obtain ⟨⟨rfl, rfl⟩, rfl⟩ := htrip
    exact ⟨rfl, rfl⟩
  | case2 a b c rest htrip content1 r1 hrec ih =>
    intro content r h
    rw [findClose, if_neg htrip, hrec] at h
    simp only [Option.some.injEq, Prod.mk.injEq] at h
    obtain ⟨rfl, rfl⟩ := h
    obtain ⟨hdec, htl⟩ := ih content1 r1 hrec
    refine ⟨by rw [List.cons_append, hdec], ?_⟩
    cases content1 with
    | nil => rfl
    | cons x t1 =>
      cases t1 with
      | nil => rfl
      | cons y t2 =>
        simp only [List.cons_append, List.cons.injEq] at hdec
        obtain ⟨rfl, rfl, -⟩ := hdec
        simp only [hasTriple, htl, Bool.or_false]
        simpa using htrip
  | case3 a b c rest htrip hrec =>
    intro content r h
    rw [findClose, if_neg htrip, hrec] at h
    simp at h
  | case4 t hshort =>
    intro content r h
    have hn : findClose t = none := by
      rcases t with _ | ⟨a, _ | ⟨b, _ | ⟨c, rest⟩⟩⟩
      · rfl
      · rfl
      · rfl
      · exact absurd rfl (hshort a b c rest)
    rw [hn] at h
    simp at h

theorem stripTicksAux_nil (fuel : Nat) : stripTicksAux fuel [] = [] := by
  cases fuel <;> rfl

theorem stripTicksAux_short : ∀ (fuel : Nat) (s : List Char),
    s.length ≤ 2 → s.length ≤ fuel → stripTicksAux fuel s = s := by
  intro fuel
  induction fuel with
  | zero =>
    intro s _ hf
    have : s = [] := List.eq_nil_of_length_eq_zero (Nat.le_zero.mp hf)
    subst this
    rfl
  | succ n ih =>
    intro s h2 hf
    cases s with
    | nil => rfl
    | cons a t =>
      cases t with
      | nil =>
        have e1 : startsWithTicksJson [a] = false := rfl
        have e2 : startsWithL [a] [btick, btick, btick] = false := by
          simp [startsWithL]
        simp [stripTicksAux, e1, e2, stripTicksAux_nil]
      | cons b t2 =>
        cases t2 with
        | nil =>
          have e1 : startsWithTicksJson [a, b] = false := rfl
          have e2 : startsWithL [a, b] [btick, btick, btick] = false := by
            simp [startsWithL]
          have hn1 : (1 : Nat) ≤ n := by simp at hf; omega
          simp [stripTicksAux, e1, e2, ih [b] (by simp) hn1]
        | cons c t3 =>
          exfalso
          simp at h2

theorem stripTicksAux_append_fence : ∀ (fuel : Nat) (X : List Char),
    X.length + 3 ≤ fuel → hasTriple X = false →
    stripTicksAux fuel (X ++ [btick, btick, btick]) = X := by
  intro fuel
  induction fuel with
  | zero => intro X h _; omega
  | succ n ih =>
    intro X hlen htrip
    cases X with
    | nil =>
      have e1 : startsWithTicksJson [btick, btick, btick] = false := rfl
      have e2 : startsWithL [btick, btick, btick] [btick, btick, btick] = true := by decide
      simp [stripTicksAux, e1, e2, stripTicksAux_nil]
    | cons x X1 =>
      cases X1 with
      | nil =>
        have e1 : startsWithTicksJson [x, btick, btick, btick] = false := rfl
        by_cases hx : x = btick
        · subst hx
          have e2 : startsWithL [btick, btick, btick, btick] [btick, btick, btick] = true := by
            decide
          have hsh := stripTicksAux_short n [btick] (by simp) (by simp at hlen ⊢; omega)
          simp [stripTicksAux, e1, e2, hsh]
        · have e2 : startsWithL [x, btick, btick, btick] [btick, btick, btick] = false := by
            simp [startsWithL, hx]
          have hrec := ih [] (by simp at hlen ⊢; omega) rfl
          simp only [List.nil_append] at hrec
          simp [stripTicksAux, e1, e2, hrec]
      | cons y X2 =>
        cases X2 with
        | nil =>
          have e1 : startsWithTicksJson [x, y, btick, btick, btick] = false := rfl
          by_cases hxy : x = btick ∧ y = btick
          · obtain ⟨rfl, rfl⟩ := hxy
            have e2 : startsWithL [btick, btick, btick, btick, btick]
                [btick, btick, btick] = true := by decide
            have hsh := stripTicksAux_short n [btick, btick] (by simp) (by simp at hlen ⊢; omega)
            simp [stripTicksAux, e1, e2, hsh]
          · have e2 : startsWithL [x, y, btick, btick, btick] [btick, btick, btick] = false := by
              by_cases hx : x = btick
              · by_cases hy : y = btick
                · exact absurd ⟨hx, hy⟩ hxy
                · simp [startsWithL, hx, hy]
              · simp [startsWithL, hx]
            have hrec := ih [y] (by simp at hlen ⊢; omega) rfl
            simp only [List.cons_append, List.nil_append] at hrec
            simp [stripTicksAux, e1, e2, hrec]
        | cons z X3 =>
          have htrip1 : ¬(x = btick ∧ y = btick ∧ z = btick) := by
            rintro ⟨rfl, rfl, rfl⟩
            simp [hasTriple] at htrip
          have e1 : startsWithTicksJson
              (x :: y :: z :: (X3 ++ [btick, btick, btick])) = false := by
            cases hs : startsWithTicksJson (x :: y :: z :: (X3 ++ [btick, btick, btick])) with
            | false => rfl
            | true =>
              obtain ⟨hx, hy, hz⟩ := swtj_ticks _ _ _ _ hs
              exact absurd ⟨hx, hy, hz⟩ htrip1
          have e2 : startsWithL (x :: y :: z :: (X3 ++ [btick, btick, btick]))
              [btick, btick, btick] = false := by
            by_cases hx : x = btick
            · by_cases hy : y = btick
              · by_cases hz : z = btick
                · exact absurd ⟨hx, hy, hz⟩ htrip1
                · simp [startsWithL, hx, hy, hz]
              · simp [startsWithL, hx, hy]
            · simp [startsWithL, hx]
          have htl : hasTriple (y :: z :: X3) = false := by
            have h := htrip
            simp [hasTriple] at h
            exact h.2
          have hrec := ih (y :: z :: X3) (by simp at hlen ⊢; omega) htl
          simp only [List.cons_append] at hrec ⊢
          simp [stripTicksAux, e1, e2, hrec]

theorem stripFencesAux_repl_eq : ∀ (fuel : Nat) (s : List Char), s.length ≤ fuel →
    stripFencesAux (fun whole _ => stripTicks whole) fuel s =
      stripFencesAux (fun _ content => content) fuel s := by
  intro fuel
  induction fuel with
  | zero => intro s _; rfl
  | succ n ih =>
    intro s hlen
    cases s with
    | nil => rfl
    | cons c cs =>
      by_cases hw : startsWithTicksJson (c :: cs) = true
      · cases hf : findClose ((c :: cs).drop 7) with
        | none =>
          simp only [stripFencesAux, hw, if_true, hf]
          rw [ih cs (by simp at hlen; omega)]
        | some p =>
          obtain ⟨content, rest⟩ := p
          obtain ⟨j1, s1, o1, n1, rest0, hs, hj, hs1, ho, hn⟩ := swtj_shape _ hw
          have hdrop : (c :: cs).drop 7 = rest0 := by rw [hs]; rfl
          have hf0 : findClose rest0 = some (content, rest) := by rw [← hdrop]; exact hf
          obtain ⟨hdec, htrip⟩ := findClose_decomp rest0 content rest hf0
          have htake : (c :: cs).take (7 + (content.length + 3)) =
              btick :: btick :: btick :: j1 :: s1 :: o1 :: n1 ::
                (content ++ [btick, btick, btick]) := by
            rw [List.take_add, hdrop, hdec]
            have h7 : (c :: cs).take 7 =
                [btick, btick, btick, j1, s1, o1, n1] := by rw [hs]; rfl
            rw [h7, List.take_append_eq_append_take]
            have hc1 : content.length ≤ content.length + 3 := by omega
            rw [List.take_of_length_le hc1]
            have hc2 : content.length + 3 - content.length = 3 := by omega
            rw [hc2]
            rfl
          have hwhole : stripTicks ((c :: cs).take (7 + (content.length + 3))) = content := by
            rw [htake, stripTicks]
            have hL : (btick :: btick :: btick :: j1 :: s1 :: o1 :: n1 ::
                (content ++ [btick, btick, btick])).length = content.length + 10 := by
              simp [List.length_append]
            rw [hL]
            have hsw : startsWithTicksJson (btick :: btick :: btick :: j1 :: s1 :: o1 :: n1 ::
                (content ++ [btick, btick, btick])) = true := by
              simp [startsWithTicksJson, hj, hs1, ho, hn]
            have hstep : stripTicksAux (content.length + 10)
                (btick :: btick :: btick :: j1 :: s1 :: o1 :: n1 ::
                  (content ++ [btick, btick, btick])) =
                stripTicksAux (content.length + 9) (content ++ [btick, btick, btick]) := by
              show stripTicksAux ((content.length + 9) + 1) _ = _
              rw [stripTicksAux]
              simp [hsw]
            rw [hstep]
            exact stripTicksAux_append_fence (content.length + 9) content (by omega) htrip
          have hrest : rest.length ≤ n := by
            have : (c :: cs).length = content.length + rest.length + 10 := by
              rw [hs, hdec]
              simp [List.length_append]
              omega
            omega
          simp only [stripFencesAux, hw, if_true, hf]
          rw [hwhole, ih rest hrest]
      · simp only [stripFencesAux]
        rw [if_neg hw, if_neg hw, ih cs (by simp at hlen; omega)]

theorem dropWhile_head_not (p : Char → Bool) :
    ∀ (l : List Char) (c : Char) (rest : List Char), l.dropWhile p = c :: rest → p c = false := by
  intro l
  induction l with
  | nil => intro c rest h; simp at h
  | cons a t ih =>
    intro c rest h
    by_cases hp : p a
    · rw [List.dropWhile_cons_of_pos hp] at h
      exact ih c rest h
    · rw [List.dropWhile_cons_of_neg hp] at h
      obtain ⟨rfl, -⟩ := List.cons.inj h
      simpa using hp

theorem jsTrim_decomp (pre mid post : List Char)
    (hh : mid.head? = some lbrace) (hl : mid.getLast? = some rbrace) :
    jsTrim (pre ++ mid ++ post) =
      pre.dropWhile isJsWs ++ mid ++ (post.reverse.dropWhile isJsWs).reverse := by
  obtain ⟨m1, hm1⟩ : ∃ t, mid = lbrace :: t := by
    cases mid with
    | nil => simp at hh
    | cons a t =>
      simp only [List.head?_cons, Option.some.injEq] at hh
      exact ⟨t, by rw [hh]⟩
  obtain ⟨m2, hm2⟩ : ∃ t, mid.reverse = rbrace :: t := by
    cases hrv : mid.reverse with
    | nil =>
      exfalso
      have : mid = [] := by simpa using congrArg List.reverse hrv
      rw [this] at hh
      simp at hh
    | cons a t =>
      have ha : mid.getLast? = some a := by
        rw [← List.head?_reverse, hrv, List.head?_cons]
      rw [hl] at ha
      exact ⟨t, by rw [Option.some.inj ha]⟩
  have h1 : (pre ++ mid ++ post).dropWhile isJsWs =
      pre.dropWhile isJsWs ++ (mid ++ post) := by
    rw [List.append_assoc, List.dropWhile_append]
    split
    · rename_i hemp
      rw [List.isEmpty_iff.mp hemp]
      rw [hm1, List.cons_append,
        List.dropWhile_cons_of_neg (by rw [show isJsWs lbrace = false from by decide]; simp)]
      simp
    · rfl
  have h2 : (pre.dropWhile isJsWs ++ (mid ++ post)).reverse.dropWhile isJsWs =
      post.reverse.dropWhile isJsWs ++ (mid.reverse ++ (pre.dropWhile isJsWs).reverse) := by
    rw [List.reverse_append, List.reverse_append, List.append_assoc, List.dropWhile_append]
    split
    · rename_i hemp
      rw [List.isEmpty_iff.mp hemp]
      rw [hm2, List.cons_append,
        List.dropWhile_cons_of_neg (by rw [show isJsWs rbrace = false from by decide]; simp)]
      simp
    · rfl
  rw [jsTrim, h1, h2]
  simp [List.reverse_append]

theorem idxOfChar_append_left_free (c : Char) (l1 l2 : List Char) (h : c ∉ l1) :
    idxOfChar c (l1 ++ l2) = (idxOfChar c l2).map (· + l1.length) := by
  induction l1 with
  | nil =>
    simp only [List.nil_append, List.length_nil]
    cases idxOfChar c l2 <;> simp
  | cons a t ih =>
    have ha : ¬(a = c) := fun hh => h (by simp [hh])
    have ht : c ∉ t := fun hh => h (by simp [hh])
    rw [List.cons_append, idxOfChar, if_neg ha, ih ht]
    cases idxOfChar c l2 with
    | none => rfl
    | some i => simp [List.length_cons]; omega

theorem idxOfChar_cons_self (c : Char) (l : List Char) : idxOfChar c (c :: l) = some 0 := by
  simp [idxOfChar]

theorem mem_of_mem_dropWhile (p : Char → Bool) (l : List Char) (x : Char)
    (hx : x ∈ l.dropWhile p) : x ∈ l :=
  (List.dropWhile_sublist p).subset hx

/-- Core behaviour of the shared `extractJson` tail: on leading prose
without an opening brace, a parseable object text, and trailing prose
without a closing brace, the trim/slice/parse pipeline recovers the object —
when either some non-whitespace prose precedes the object (so that the slice
branch is taken) or the trailing prose is whitespace only (so that the
whole trimmed text is the object). -/
theorem extractCore_slices (pre mid post : List Char) (v : Json)
    (hhead : mid.head? = some lbrace)
    (hlast : mid.getLast? = some rbrace)
    (hparse : jsonParse mid = some v)
    (hpre : lbrace ∉ pre)
    (hpost : rbrace ∉ post)
    (hcase : (∃ ch ∈ pre, isJsWs ch = false) ∨ (∀ ch ∈ post, isJsWs ch = true)) :
    extractCore (pre ++ mid ++ post) = some v := by
  obtain ⟨m1, hm1⟩ : ∃ t, mid = lbrace :: t := by
    cases mid with
    | nil => simp at hhead
    | cons a t =>
      simp only [List.head?_cons, Option.some.injEq] at hhead
      exact ⟨t, by rw [hhead]⟩
  obtain ⟨m2, hm2⟩ : ∃ t, mid.reverse = rbrace :: t := by
    cases hrv : mid.reverse with
    | nil =>
      exfalso
      have : mid = [] := by simpa using congrArg List.reverse hrv
      rw [this] at hhead
      simp at hhead
    | cons a t =>
      have ha : mid.getLast? = some a := by
        rw [← List.head?_reverse, hrv, List.head?_cons]
      rw [hlast] at ha
      exact ⟨t, by rw [Option.some.inj ha]⟩
  have hmid2 : 2 ≤ mid.length := by
    rw [hm1]
    cases m1 with
    | nil =>
      exfalso
      rw [hm1] at hm2
      simp only [List.reverse_cons, List.reverse_nil, List.nil_append,
        List.cons.injEq] at hm2
      exact absurd hm2.1 (by decide)
    | cons b t => simp
  set preT := pre.dropWhile isJsWs with hpreT
  set postT := (post.reverse.dropWhile isJsWs).reverse with hpostT
  have htrim : jsTrim (pre ++ mid ++ post) = preT ++ mid ++ postT :=
    jsTrim_decomp pre mid post hhead hlast
  have htrim2 : jsTrim (preT ++ mid ++ postT) = preT ++ mid ++ postT := by
    have hd1 : preT.dropWhile isJsWs = preT := by
      cases hp : preT with
      | nil => rfl
      | cons c rest =>
        have := dropWhile_head_not isJsWs pre c rest (by rw [← hp])
        rw [List.dropWhile_cons_of_neg (by rw [this]; simp)]
    have hd2 : postT.reverse.dropWhile isJsWs = postT.reverse := by
      have : postT.reverse = post.reverse.dropWhile isJsWs := by
        rw [hpostT, List.reverse_reverse]
      rw [this]
      cases hp : post.reverse.dropWhile isJsWs with
      | nil => rfl
      | cons c rest =>
        have := dropWhile_head_not isJsWs post.reverse c rest hp
        rw [List.dropWhile_cons_of_neg (by rw [this]; simp)]
    have := jsTrim_decomp preT mid postT hhead hlast
    rw [this, hd1]
    rw [show (postT.reverse.dropWhile isJsWs).reverse = postT from by
      rw [hd2, List.reverse_reverse]]
  have hpre_mem : lbrace ∉ preT := fun hx => hpre (mem_of_mem_dropWhile _ _ _ hx)
  have hpost_mem : rbrace ∉ postT := fun hx => by
    have : rbrace ∈ post.reverse.dropWhile isJsWs := by
      rw [hpostT] at hx
      simpa using hx
    exact hpost (by simpa using mem_of_mem_dropWhile _ _ _ this)
  by_cases hA : ∃ ch ∈ pre, isJsWs ch = false
  · -- sliced path: preT is nonempty and its head is not an opening brace
    obtain ⟨ch, hchmem, hchws⟩ := hA
    have hpreT_ne : preT ≠ [] := by
      rw [hpreT]
      intro hnil
      have := List.dropWhile_eq_nil_iff.mp hnil
      rw [this ch hchmem] at hchws
      simp at hchws
    obtain ⟨p0, pr, hp0⟩ : ∃ p0 pr, preT = p0 :: pr := by
      cases hp : preT with
      | nil => exact absurd hp hpreT_ne
      | cons a t => exact ⟨a, t, rfl⟩
    have hp0ne : p0 ≠ lbrace := by
      intro hq
      exact hpre_mem (by rw [hp0, hq]; simp)
    rw [extractCore, htrim, htrim2]
    have hstart : startsWithL (preT ++ mid ++ postT) [lbrace] = false := by
      rw [hp0, List.cons_append, List.cons_append, startsWithL]
      simp [hp0ne]
    rw [hstart]
    simp only [Bool.false_eq_true, if_false]
    have hidx : idxOfChar lbrace (preT ++ mid ++ postT) = some preT.length := by
      rw [List.append_assoc, idxOfChar_append_left_free _ _ _ hpre_mem, hm1,
        List.cons_append, idxOfChar_cons_self]
      simp
    have hlidx : lastIdxOfChar rbrace (preT ++ mid ++ postT) =
        some (preT.length + mid.length - 1) := by
      rw [lastIdxOfChar]
      have : (preT ++ mid ++ postT).reverse = postT.reverse ++ (mid.reverse ++ preT.reverse) := by
        simp [List.reverse_append]
      rw [this, idxOfChar_append_left_free _ _ _ (by simpa using hpost_mem), hm2,
        List.cons_append, idxOfChar_cons_self]
      simp [List.length_append, List.length_reverse]
      omega
    have hlt : preT.length < preT.length + mid.length - 1 := by omega
    simp only [hidx, hlidx]
    rw [if_pos hlt]
    have hslice : sliceTo (preT ++ mid ++ postT) preT.length
        (preT.length + mid.length - 1 + 1) = mid := by
      rw [sliceTo, List.append_assoc, List.drop_left]
      have : preT.length + mid.length - 1 + 1 - preT.length = mid.length := by omega
      rw [this, List.take_left]
    rw [hslice]
    exact hparse
  · -- untouched path: everything around the object is whitespace
    have hpreTnil : preT = [] := by
      rw [hpreT, List.dropWhile_eq_nil_iff]
      intro x hx
      by_contra hxx
      exact hA ⟨x, hx, by simpa using hxx⟩
    have hpostallws : ∀ ch ∈ post, isJsWs ch = true := hcase.resolve_left hA
    have hpostTnil : postT = [] := by
      rw [hpostT]
      have : post.reverse.dropWhile isJsWs = [] := by
        rw [List.dropWhile_eq_nil_iff]
        intro x hx
        exact hpostallws x (by simpa using hx)
      rw [this]
      rfl
    rw [extractCore, htrim, htrim2, hpreTnil, hpostTnil]
    simp only [List.nil_append, List.append_nil]
    have hstart : startsWithL mid [lbrace] = true := by
      rw [hm1]
      show (lbrace == lbrace && startsWithL m1 []) = true
      cases m1 <;> simp [startsWithL]
    rw [hstart]
    simp only [if_true]
    exact hparse

theorem stripFencesAux_id_of_noTick (repl : List Char → List Char → List Char) :
    ∀ (fuel : Nat) (s : List Char), s.length ≤ fuel → noTick s →
    stripFencesAux repl fuel s = s := by
  intro fuel
  induction fuel with
  | zero =>
    intro s h _
    have : s = [] := List.eq_nil_of_length_eq_zero (Nat.le_zero.mp h)
    subst this
    rfl
  | succ n ih =>
    intro s hlen hnt
    cases s with
    | nil => rfl
    | cons c cs =>
      have hw : startsWithTicksJson (c :: cs) = false := by
        cases hs : startsWithTicksJson (c :: cs) with
        | false => rfl
        | true =>
          obtain ⟨j1, s1, o1, n1, r0, hseq, -⟩ := swtj_shape _ hs
          have hc : c = btick := by
            have := congrArg List.head? hseq
            simpa using this
          exact absurd hc (hnt c (by simp))
      simp only [stripFencesAux]
      rw [if_neg (by simp [hw]), ih cs (by simp at hlen; omega)
        (fun x hx => hnt x (by simp [hx]))]

theorem findClose_clean : ∀ (inner post : List Char), noTick inner →
    findClose (inner ++ btick :: btick :: btick :: post) = some (inner, post) := by
  intro inner
  induction inner with
  | nil =>
    intro post _
    show findClose (btick :: btick :: btick :: post) = _
    rw [findClose]
    simp
  | cons x t ih =>
    intro post hnt
    have hx : x ≠ btick := hnt x (by simp)
    rcases hL : t ++ btick :: btick :: btick :: post with _ | ⟨b, _ | ⟨c2, rest2⟩⟩
    · exfalso
      simp at hL
    · exfalso
      have := congrArg List.length hL
      simp at this
      omega
    · show findClose (x :: (t ++ btick :: btick :: btick :: post)) = _
      rw [hL, findClose, if_neg (by simp [hx]), ← hL,
        ih post (fun y hy => hnt y (by simp [hy]))]

theorem stripFences1_fenced : ∀ (pre : List Char) (fuel : Nat) (content post : List Char),
    (pre ++ btick :: btick :: btick :: 'j' :: 's' :: 'o' :: 'n' ::
      (content ++ btick :: btick :: btick :: post)).length ≤ fuel →
    noTick pre → noTick content → noTick post →
    stripFencesAux (fun _ c => c) fuel
      (pre ++ btick :: btick :: btick :: 'j' :: 's' :: 'o' :: 'n' ::
        (content ++ btick :: btick :: btick :: post)) = pre ++ (content ++ post) := by
  intro pre
  induction pre with
  | nil =>
    intro fuel content post hlen _ hc hpo
    cases fuel with
    | zero => simp at hlen
    | succ n =>
      simp only [List.nil_append] at hlen ⊢
      have hsw : startsWithTicksJson (btick :: btick :: btick :: 'j' :: 's' :: 'o' :: 'n' ::
          (content ++ btick :: btick :: btick :: post)) = true := rfl
      simp only [stripFencesAux, hsw, if_true]
      have hdrop : (btick :: btick :: btick :: 'j' :: 's' :: 'o' :: 'n' ::
          (content ++ btick :: btick :: btick :: post)).drop 7 =
          content ++ btick :: btick :: btick :: post := rfl
      rw [hdrop, findClose_clean content post hc]
      show content ++ stripFencesAux (fun _ c => c) n post = content ++ post
      rw [stripFencesAux_id_of_noTick _ n post (by simp at hlen; omega) hpo]
  | cons p pr ih =>
    intro fuel content post hlen hp hc hpo
    cases fuel with
    | zero => simp at hlen
    | succ n =>
      have hpne : p ≠ btick := hp p (by simp)
      have hw : startsWithTicksJson (p :: (pr ++ btick :: btick :: btick :: 'j' :: 's' ::
          'o' :: 'n' :: (content ++ btick :: btick :: btick :: post))) = false := by
        cases hs : startsWithTicksJson (p :: (pr ++ btick :: btick :: btick :: 'j' :: 's' ::
            'o' :: 'n' :: (content ++ btick :: btick :: btick :: post))) with
        | false => rfl
        | true =>
          obtain ⟨j1, s1, o1, n1, r0, hseq, -⟩ := swtj_shape _ hs
          have hph : p = btick := by
            have := congrArg List.head? hseq
            simpa using this
          exact absurd hph hpne
      simp only [List.cons_append] at hlen ⊢
      simp only [stripFencesAux]
      rw [if_neg (by simp [hw])]
      rw [ih n content post (by simp at hlen ⊢; omega)
        (fun y hy => hp y (by simp [hy])) hc hpo]

/-- Whitespace characters are never a backtick or a brace. -/
theorem ws_not_special (c : Char) (h : isJsWs c = true) :
    c ≠ btick ∧ c ≠ lbrace ∧ c ≠ rbrace := by
  refine ⟨fun hq => ?_, fun hq => ?_, fun hq => ?_⟩ <;>
    (subst hq; exact absurd h (by decide))

/-- Counterexample to C4 as stated: the object text is well-formed JSON on
its own, but with only trailing prose the text already starts with an
opening brace, no slicing happens, and `JSON.parse` rejects the trailing
characters — `extractJson` returns `null` instead of recovering the
object. -/
theorem extractJson_trailing_prose_counterexample :
    jsonParse (String.toList "\x7b\"a\":1\x7d") = some (Json.jobj [("a", Json.num 1)]) ∧
    extractJson1 (String.toList "\x7b\"a\":1\x7d ok") = none :=
  ⟨by decide, by rfl⟩

/-- C4 (amended): `extractJson` recovers a well-formed JSON object wrapped
in an optional lowercase fenced code block and surrounded by prose,
provided the prose and the object text contain no backticks, the leading
prose contains no opening brace, the trailing prose contains no closing
brace, and either some non-whitespace leading prose precedes the object
(the text does not start with the object, so the first-brace/last-brace
slice is taken) or the trailing prose is whitespace only (the code does not
slice when the trimmed text already starts with an opening brace, so
non-whitespace trailing prose alone is not tolerated — see the
counterexample).  The first conjunct is the bare-prose form, the second the
fenced form with whitespace padding inside the fence. -/
theorem extractJson_recovers_wrapped_object :
    (∀ (pre mid post : List Char) (v : Json),
      noTick pre → noTick mid → noTick post →
      mid.head? = some lbrace → mid.getLast? = some rbrace →
      jsonParse mid = some v →
      lbrace ∉ pre → rbrace ∉ post →
      ((∃ ch ∈ pre, isJsWs ch = false) ∨ (∀ ch ∈ post, isJsWs ch = true)) →
      extractJson1 (pre ++ mid ++ post) = some v) ∧
    (∀ (pre wsA mid wsB post : List Char) (v : Json),
      noTick pre → noTick mid → noTick post →
      (∀ ch ∈ wsA, isJsWs ch = true) → (∀ ch ∈ wsB, isJsWs ch = true) →
      mid.head? = some lbrace → mid.getLast? = some rbrace →
      jsonParse mid = some v →
      lbrace ∉ pre → rbrace ∉ post →
      ((∃ ch ∈ pre, isJsWs ch = false) ∨ (∀ ch ∈ post, isJsWs ch = true)) →
      extractJson1 (pre ++ btick :: btick :: btick :: 'j' :: 's' :: 'o' :: 'n' ::
        ((wsA ++ mid ++ wsB) ++ btick :: btick :: btick :: post)) = some v) := by
  have hmid_ne : ∀ (mid : List Char), mid.head? = some lbrace → mid ≠ [] := by
    intro mid hh hnil
    rw [hnil] at hh
    simp at hh
  constructor
  · intro pre mid post v htp htm htpo hh hl hp hbp hbpo hcase
    have hne : (pre ++ mid ++ post).isEmpty = false := by
      have := hmid_ne mid hh
      cases mid with
      | nil => simp at this
      | cons a t => cases pre <;> simp
    rw [extractJson1, hne]
    simp only [Bool.false_eq_true, if_false]
    have hid : stripFences1 (pre ++ mid ++ post) = pre ++ mid ++ post := by
      rw [stripFences1]
      refine stripFencesAux_id_of_noTick _ _ _ le_rfl ?_
      intro c hc
      simp only [List.append_assoc, List.mem_append] at hc
      rcases hc with h | h | h
      exacts [htp c h, htm c h, htpo c h]
    rw [hid]
    exact extractCore_slices pre mid post v hh hl hp hbp hbpo hcase
  · intro pre wsA mid wsB post v htp htm htpo hwa hwb hh hl hp hbp hbpo hcase
    have hne : (pre ++ btick :: btick :: btick :: 'j' :: 's' :: 'o' :: 'n' ::
        ((wsA ++ mid ++ wsB) ++ btick :: btick :: btick :: post)).isEmpty = false := by
      cases pre <;> simp
    rw [extractJson1, hne]
    simp only [Bool.false_eq_true, if_false]
    have hctick : noTick (wsA ++ mid ++ wsB) := by
      intro c hc
      simp only [List.append_assoc, List.mem_append] at hc
      rcases hc with h | h | h
      · exact (ws_not_special c (hwa c h)).1
      · exact htm c h
      · exact (ws_not_special c (hwb c h)).1
    have hid : stripFences1 (pre ++ btick :: btick :: btick :: 'j' :: 's' :: 'o' :: 'n' ::
        ((wsA ++ mid ++ wsB) ++ btick :: btick :: btick :: post)) =
        pre ++ ((wsA ++ mid ++ wsB) ++ post) := by
      rw [stripFences1]
      exact stripFences1_fenced pre _ (wsA ++ mid ++ wsB) post le_rfl htp hctick htpo
    rw [hid]
    have hregroup : pre ++ ((wsA ++ mid ++ wsB) ++ post) =
        (pre ++ wsA) ++ mid ++ (wsB ++ post) := by
      simp [List.append_assoc]
    rw [hregroup]
    refine extractCore_slices (pre ++ wsA) mid (wsB ++ post) v hh hl hp ?_ ?_ ?_
    · intro hx
      simp only [List.mem_append] at hx
      rcases hx with h | h
      · exact hbp h
      · exact absurd (hwa _ h) (by decide)
    · intro hx
      simp only [List.mem_append] at hx
      rcases hx with h | h
      · exact absurd (hwb _ h) (by decide)
      · exact hbpo h
    · rcases hcase with ⟨ch, hchm, hchw⟩ | hall
      · exact Or.inl ⟨ch, by simp [hchm], hchw⟩
      · refine Or.inr fun ch hch => ?_
        simp only [List.mem_append] at hch
        rcases hch with h | h
        exacts [hwb ch h, hall ch h]

/-- Witness for the amended C4 at the spec's robustness example: the reply
"Sure! " followed by a fenced `json` block containing the container-numbers
object recovers that object. -/
theorem extractJson_recovers_wrapped_object_witness :
    extractJson1 (("Sure! ".toList) ++ btick :: btick :: btick :: 'j' :: 's' :: 'o' :: 'n' ::
        ((['\n'] ++ String.toList "\x7b\"container_numbers\":[\"ABCD1234567\"]\x7d" ++ ['\n']) ++
          btick :: btick :: btick :: ([] : List Char))) =
      some (Json.jobj [("container_numbers", Json.jarr [.str ("ABCD1234567".toList)])]) :=
  extractJson_recovers_wrapped_object.2 _ _ _ _ _ _ (by decide) (by decide) (by decide)
    (by decide) (by decide) (by decide) (by decide) (by decide) (by decide) (by decide)
    (by decide)

/-- C10: the two separately embedded `extractJson` implementations — the
bill-path one replacing each fenced block by the regex capture, and the
packing-list-path one replacing each fenced block by itself with the fence
markers removed — are extensionally equal: they return the same result on
every input string. -/
theorem extractJson_implementations_agree (s : List Char) :
    extractJson1 s = extractJson2 s := by
  rw [extractJson1, extractJson2, stripFences1, stripFences2,
    stripFencesAux_repl_eq s.length s le_rfl]

end CT
